import Mathlib

/-!
Verification of the ABAP segmentation engine (repository Abap_parser).

The engine (src/app_V6.py, with src/app.py as an earlier iteration that some
claims also cite) segments a source string into typed records by scanning it
with Python `re` patterns.  We shallowly embed the code here:

* strings are lists of Unicode codepoints (`Str := List Nat`);
* the Python regular expressions are transcribed, construct by construct,
  into an explicit AST (`RE`) and executed by a backtracking matcher `mrun`
  that reproduces the Python `re` semantics for the constructs these
  patterns use: leftmost search, alternation preferring the left branch,
  greedy and lazy repetition with full backtracking, multiline anchors
  (all patterns carry the `m` and `s` flags), word boundaries, capturing
  groups, and optional ASCII case-insensitive comparison (the `i` flag);
* `finditer`, `match` (anchored prefix match) and the record-building
  functions `_emit_block` / `parse_abap_code_to_ndjson` are translated
  directly from the source.

The matcher is written in continuation-passing style with a fuel argument
that decreases on every call; the fuel supplied by `matchAt` is large enough
for every pattern of this repository (fuel is consumed only along one spine
of the search: one unit per AST layer and one unit per star iteration).
-/

set_option maxRecDepth 8192

abbrev Str := List Nat

/-- Codepoints of a string literal (used to write inputs and expected outputs). -/
def S (s : String) : Str := s.data.map Char.toNat

/-- Python whitespace for `str.strip` / the regex class `\s` (ASCII range). -/
def isPySpaceN (n : Nat) : Bool :=
  decide (n = 32 ∨ n = 9 ∨ n = 10 ∨ n = 13 ∨ n = 11 ∨ n = 12)

/-- The regex class `\w` (ASCII range). -/
def isWordN (n : Nat) : Bool :=
  decide ((48 ≤ n ∧ n ≤ 57) ∨ (65 ≤ n ∧ n ≤ 90) ∨ (97 ≤ n ∧ n ≤ 122) ∨ n = 95)

/-- ASCII lowercase folding, the comparison used by `re.IGNORECASE`
on the ASCII keywords of these patterns. -/
def lowerN (n : Nat) : Nat := if 65 ≤ n ∧ n ≤ 90 then n + 32 else n

/-- ASCII uppercase folding (`str.upper`) for the MODULE mode keyword. -/
def upperN (n : Nat) : Nat := if 97 ≤ n ∧ n ≤ 122 then n - 32 else n

def upperStr (l : Str) : Str := l.map upperN

/-- `bool(x.strip())` for a Python string: does it hold a non-whitespace char. -/
def hasNonWs (l : Str) : Bool := l.any (fun c => !(isPySpaceN c))

/-- Python `str.rstrip()`. -/
def rstripPy (l : Str) : Str := (l.reverse.dropWhile isPySpaceN).reverse

/-- Python `str.lstrip()`. -/
def lstripPy (l : Str) : Str := l.dropWhile isPySpaceN

/-- Python sliceStr `src[a:b]` (clamping, `a ≤ b` in all uses). -/
def sliceStr (src : Str) (a b : Nat) : Str := (src.drop a).take (b - a)

/-- Python `src.count("\n", 0, k)`. -/
def countNl (src : Str) (k : Nat) : Nat :=
  ((src.take k).filter (fun c => decide (c = 10))).length

/-- Character classes appearing in the patterns. -/
inductive CC where
  | ws        -- \s
  | word      -- \w
  | notNl     -- [^\n]
  | spaceTab  -- [ \t]
  | alphaUnd  -- [A-Za-z_]
  | anyc      -- . under the s (DOTALL) flag, which every pattern sets
deriving DecidableEq

def CC.mem : CC → Nat → Bool
  | .ws, n => isPySpaceN n
  | .word, n => isWordN n
  | .notNl, n => decide (¬ n = 10)
  | .spaceTab, n => decide (n = 32 ∨ n = 9)
  | .alphaUnd, n => decide ((65 ≤ n ∧ n ≤ 90) ∨ (97 ≤ n ∧ n ≤ 122) ∨ n = 95)
  | .anyc, _ => true

/-- Regex AST.  `star lazyFlag` is `*` (greedy) or `*?` (lazy); `opt` is a
greedy `(?:...)?`; `bol`/`eol` are `^`/`$` under the `m` flag, which every
pattern sets; `wb` is `\b`; `grp` is a capturing group. -/
inductive RE where
  | eps
  | lit (c : Nat)
  | cls (c : CC)
  | seq (a b : RE)
  | alt (a b : RE)
  | star (lazy : Bool) (a : RE)
  | opt (a : RE)
  | bol
  | eol
  | wb
  | grp (i : Nat) (a : RE)
deriving DecidableEq

/-- Literal comparison: exact, or ASCII case-folded under the i flag. -/
def eqN (ci : Bool) (c d : Nat) : Bool :=
  if ci then decide (lowerN c = lowerN d) else decide (c = d)

/-- Matcher state: absolute position, previous character (for `^`, `\b`),
remaining input, captured group spans (most recent first, as Python keeps
the last capture of each group). -/
structure MSt where
  pos : Nat
  prev : Option Nat
  rest : Str
  caps : List (Nat × Nat × Nat)

def adv (st : MSt) (d : Nat) (tl : Str) : MSt :=
  ⟨st.pos + 1, some d, tl, st.caps⟩

def isWordOpt : Option Nat → Bool
  | some c => isWordN c
  | none => false

/-- Backtracking matcher in continuation-passing style, Python `re`
semantics: alternation tries the left branch (with the whole continuation)
first; greedy repetition tries the longest extension first, lazy the
shortest; a repetition whose body matched without consuming stops (Python
terminates empty repetitions; every starred body in these patterns consumes
at least one character, so this is exact).  Fuel decreases on every call. -/
def mrun (ci : Bool) : Nat → RE → MSt → (MSt → Option MSt) → Option MSt
  | 0, _, _, _ => none
  | _ + 1, .eps, st, k => k st
  | _ + 1, .lit c, st, k =>
    match st.rest with
    | [] => none
    | d :: tl => if eqN ci c d then k (adv st d tl) else none
  | _ + 1, .cls cc, st, k =>
    match st.rest with
    | [] => none
    | d :: tl => if cc.mem d then k (adv st d tl) else none
  | fuel + 1, .seq a b, st, k =>
    mrun ci fuel a st (fun st2 => mrun ci fuel b st2 k)
  | fuel + 1, .alt a b, st, k =>
    match mrun ci fuel a st k with
    | some r => some r
    | none => mrun ci fuel b st k
  | fuel + 1, .star lz a, st, k =>
    let cont := fun st2 =>
      if st2.pos = st.pos then none
      else mrun ci fuel (.star lz a) st2 k
    if lz then
      match k st with
      | some r => some r
      | none => mrun ci fuel a st cont
    else
      match mrun ci fuel a st cont with
      | some r => some r
      | none => k st
  | fuel + 1, .opt a, st, k =>
    match mrun ci fuel a st k with
    | some r => some r
    | none => k st
  | _ + 1, .bol, st, k =>
    if st.pos = 0 ∨ st.prev = some 10 then k st else none
  | _ + 1, .eol, st, k =>
    match st.rest with
    | [] => k st
    | d :: _ => if d = 10 then k st else none
  | _ + 1, .wb, st, k =>
    if isWordOpt st.prev ≠ isWordOpt st.rest.head? then k st else none
  | fuel + 1, .grp i a, st, k =>
    mrun ci fuel a st
      (fun st2 => k { st2 with caps := (i, st.pos, st2.pos) :: st2.caps })

def charAt (src : Str) (i : Nat) : Option Nat := (src.drop i).head?

/-- Fuel: one unit per AST layer along the matched spine plus one per star
iteration; the patterns of this repository are far below this bound. -/
def fuelFor (src : Str) : Nat := src.length + 500

/-- Attempt a match anchored at `pos` (the semantics of Python `re.match`
when `pos = 0`); returns the end offset and the captures. -/
def matchAt (ci : Bool) (r : RE) (src : Str) (pos : Nat) :
    Option (Nat × List (Nat × Nat × Nat)) :=
  match mrun ci (fuelFor src) r
      ⟨pos, if pos = 0 then none else charAt src (pos - 1), src.drop pos, []⟩
      (fun st => some st) with
  | some st => some (st.pos, st.caps)
  | none => none

/-- Leftmost match at or after `pos` (Python `re.search` starting at `pos`);
the second argument counts the positions still to try. -/
def searchFrom (ci : Bool) (r : RE) (src : Str) : Nat → Nat →
    Option (Nat × Nat × List (Nat × Nat × Nat))
  | _, 0 => none
  | pos, n + 1 =>
    match matchAt ci r src pos with
    | some (e, caps) => some (pos, e, caps)
    | none => searchFrom ci r src (pos + 1) n

def finditerAux (ci : Bool) (r : RE) (src : Str) :
    Nat → Nat → List (Nat × Nat × List (Nat × Nat × Nat))
  | _, 0 => []
  | pos, n + 1 =>
    match searchFrom ci r src pos (src.length + 1 - pos) with
    | none => []
    | some (s, e, caps) =>
      (s, e, caps) :: finditerAux ci r src (if s < e then e else e + 1) n

/-- Python `re.finditer`: non-overlapping leftmost matches, resuming after
each match (advancing by one on an empty match). -/
def finditer (ci : Bool) (r : RE) (src : Str) :
    List (Nat × Nat × List (Nat × Nat × Nat)) :=
  finditerAux ci r src 0 (src.length + 1)

-- ---------- helpers to transcribe the patterns ----------

def cat (l : List RE) : RE := l.foldr .seq .eps

/-- A literal keyword, e.g. `FORM`. -/
def rstr (s : String) : RE := (s.data.map (fun c => RE.lit c.toNat)).foldr .seq .eps

def wsS : RE := .star false (.cls .ws)              -- \s*
def wsP : RE := .seq (.cls .ws) wsS                 -- \s+
def wordP : RE := .seq (.cls .word) (.star false (.cls .word))  -- \w+
def notNlS : RE := .star false (.cls .notNl)        -- [^\n]*
def notNlLz : RE := .star true (.cls .notNl)        -- [^\n]*?
def anyLz : RE := .star true (.cls .anyc)           -- .*?
def anyG : RE := .star false (.cls .anyc)           -- .*
def dotL : RE := .lit 46                            -- \.
/-- `(?:[ \t]*"[^\n]*)?` — the optional same-line trailing comment. -/
def trailComment : RE := .opt (cat [.star false (.cls .spaceTab), .lit 34, notNlS])

-- ---------- Patterns of src/app_V6.py (all compiled with (?ims)) ----------

/-- The closer shared by the block patterns:
`^\s*KW\s*\.(?:[ \t]*"[^\n]*)?\s*$`. -/
def closerRE (kw : String) : RE :=
  cat [.bol, wsS, rstr kw, wsS, dotL, trailComment, wsS, .eol]

/-- `(?ims)^\s*FORM\s+(\w+)\b([^\n]*?)\.\s*.*?^\s*ENDFORM\s*\.(?:[ \t]*"[^\n]*)?\s*$` -/
def FORM_BLOCK_RE : RE :=
  cat [.bol, wsS, rstr ("FORM"), wsP, .grp 1 wordP, .wb, .grp 2 notNlLz, dotL,
       wsS, anyLz, closerRE ("ENDFORM")]

/-- `(?ims)^\s*CLASS\s+(\w+)\s+DEFINITION\b[^\n]*\.\s*.*?^\s*ENDCLASS\s*\.(?:[ \t]*"[^\n]*)?\s*$` -/
def CLDEF_BLOCK_RE : RE :=
  cat [.bol, wsS, rstr ("CLASS"), wsP, .grp 1 wordP, wsP, rstr ("DEFINITION"), .wb,
       notNlS, dotL, wsS, anyLz, closerRE ("ENDCLASS")]

/-- `(?ims)^\s*CLASS\s+(\w+)\s+IMPLEMENTATION\s*\.\s*.*?^\s*ENDCLASS\s*\.(?:[ \t]*"[^\n]*)?\s*$` -/
def CLIMP_BLOCK_RE : RE :=
  cat [.bol, wsS, rstr ("CLASS"), wsP, .grp 1 wordP, wsP, rstr ("IMPLEMENTATION"),
       wsS, dotL, wsS, anyLz, closerRE ("ENDCLASS")]

/-- The method-name group `([A-Za-z_]\w*(?:~\w+)?|constructor|class_constructor)`. -/
def methodNameRE : RE :=
  .alt (cat [.cls .alphaUnd, .star false (.cls .word), .opt (.seq (.lit 126) wordP)])
    (.alt (rstr ("constructor")) (rstr ("class_constructor")))

/-- `(?ims)^\s*METHOD\s+([A-Za-z_]\w*(?:~\w+)?|constructor|class_constructor)\s*\.\s*.*?^\s*ENDMETHOD\s*\.(?:[ \t]*"[^\n]*)?`
(note: no trailing `\s*$`, so several methods can be found inside a class). -/
def METHOD_BLOCK_RE : RE :=
  cat [.bol, wsS, rstr ("METHOD"), wsP, .grp 1 methodNameRE, wsS, dotL, wsS, anyLz,
       .bol, wsS, rstr ("ENDMETHOD"), wsS, dotL, trailComment]

/-- `(?ims)^\s*FUNCTION\s+(\w+)\s*\.\s*.*?^\s*ENDFUNCTION\s*\.(?:[ \t]*"[^\n]*)?\s*$` -/
def FUNC_BLOCK_RE : RE :=
  cat [.bol, wsS, rstr ("FUNCTION"), wsP, .grp 1 wordP, wsS, dotL, wsS, anyLz,
       closerRE ("ENDFUNCTION")]

/-- `(?ims)^\s*MODULE\s+(\w+)(?:\s+(INPUT|OUTPUT))?\s*\.\s*.*?^\s*ENDMODULE\s*\.(?:[ \t]*"[^\n]*)?\s*$` -/
def MODULE_BLOCK_RE : RE :=
  cat [.bol, wsS, rstr ("MODULE"), wsP, .grp 1 wordP,
       .opt (.seq wsP (.grp 2 (.alt (rstr ("INPUT")) (rstr ("OUTPUT"))))),
       wsS, dotL, wsS, anyLz, closerRE ("ENDMODULE")]

/-- `(?ims)^\s*DEFINE\s+(\w+)\s*\.\s*.*?^\s*END-OF-DEFINITION\s*\.(?:[ \t]*"[^\n]*)?\s*$` -/
def MACRO_BLOCK_RE : RE :=
  cat [.bol, wsS, rstr ("DEFINE"), wsP, .grp 1 wordP, wsS, dotL, wsS, anyLz,
       closerRE ("END-OF-DEFINITION")]

/-- The combined top-level alternation of app_V6.py (lines 48-56); each
alternative is the corresponding block pattern with the name group dropped
and an outer group added, tried left to right. -/
def TOPLEVEL_RE : RE :=
  .alt (.grp 1 (cat [.bol, wsS, rstr ("FORM"), wsP, wordP, .wb, notNlS, dotL,
        wsS, anyLz, closerRE ("ENDFORM")]))
  (.alt (.grp 2 (cat [.bol, wsS, rstr ("CLASS"), wsP, wordP, wsP, rstr ("DEFINITION"), .wb,
        notNlS, dotL, wsS, anyLz, closerRE ("ENDCLASS")]))
  (.alt (.grp 3 (cat [.bol, wsS, rstr ("CLASS"), wsP, wordP, wsP, rstr ("IMPLEMENTATION"),
        wsS, dotL, wsS, anyLz, closerRE ("ENDCLASS")]))
  (.alt (.grp 4 (cat [.bol, wsS, rstr ("FUNCTION"), wsP, wordP, wsS, dotL,
        wsS, anyLz, closerRE ("ENDFUNCTION")]))
  (.alt (.grp 5 (cat [.bol, wsS, rstr ("MODULE"), wsP, wordP,
        .opt (.seq wsP (.alt (rstr ("INPUT")) (rstr ("OUTPUT")))),
        wsS, dotL, wsS, anyLz, closerRE ("ENDMODULE")]))
        (.grp 6 (cat [.bol, wsS, rstr ("DEFINE"), wsP, wordP, wsS, dotL,
        wsS, anyLz, closerRE ("END-OF-DEFINITION")]))))))

-- ---------- records and the app_V6.py segmentation functions ----------

/-- The request payload (`ABAPInput`): two opaque identity fields and the code. -/
structure AbapInput where
  pgm_name : Str
  inc_name : Str
  code : Str

/-- One output record.  Optional dictionary keys (`name` is absent on the
fallback record, `class_implementation` only on methods, `mode` only on
modules that declare one) are modelled with `Option`. -/
structure Rec where
  pgm_name : Str
  inc_name : Str
  type : Str
  name : Option Str
  class_implementation : Option Str
  mode : Option Str
  start_line : Nat
  end_line : Nat
  code : Str

/-- `_offsets_to_lines` (identical in app.py and app_V6.py): 1-based line
numbers by counting newlines before each offset, or 0 for empty source. -/
def offsets_to_lines (src : Str) (start finish : Nat) : Nat × Nat :=
  (if src.isEmpty then 0 else countNl src start + 1,
   if src.isEmpty then 0 else countNl src finish + 1)

def groupSpan (caps : List (Nat × Nat × Nat)) (i : Nat) : Option (Nat × Nat) :=
  (caps.find? (fun t => decide (t.1 = i))).map (fun t => (t.2.1, t.2.2))

/-- `m.group(i)`, as the captured substring (empty when the group is unset,
matching the `or ""` uses in the source). -/
def groupText (src : Str) (caps : List (Nat × Nat × Nat)) (i : Nat) : Str :=
  match groupSpan caps i with
  | some (a, b) => sliceStr src a b
  | none => []

/-- The method record built inside the class_impl branch of `_emit_block`
(app_V6.py lines 133-147). -/
def mkMethod (inp : AbapInput) (block_text : Str) (start_off : Nat)
    (class_name : Str) (ms : Nat × Nat × List (Nat × Nat × Nat)) : Rec :=
  { pgm_name := inp.pgm_name, inc_name := inp.inc_name, type := S ("method"),
    name := some (groupText block_text ms.2.2 1),
    class_implementation := some class_name, mode := none,
    start_line := (offsets_to_lines inp.code (start_off + ms.1) (start_off + ms.2.1)).1,
    end_line := (offsets_to_lines inp.code (start_off + ms.1) (start_off + ms.2.1)).2,
    code := sliceStr block_text ms.1 ms.2.1 }

/-- `_emit_block` of app_V6.py (lines 64-200): try the per-kind patterns in
order; the class_impl branch emits a container record (method spans excised,
header rstripped and footer lstripped, joined by a line break when both are
non-empty) followed by one record per method; an unrecognized block emits
nothing. -/
def emit_block (inp : AbapInput) (block_text : Str) (start_off end_off : Nat) :
    List Rec :=
  let sl := (offsets_to_lines inp.code start_off end_off).1
  let el := (offsets_to_lines inp.code start_off end_off).2
  match matchAt true FORM_BLOCK_RE block_text 0 with
  | some m =>
    [{ pgm_name := inp.pgm_name, inc_name := inp.inc_name, type := S ("perform"),
       name := some (groupText block_text m.2 1), class_implementation := none,
       mode := none, start_line := sl, end_line := el, code := block_text }]
  | none =>
  match matchAt true CLDEF_BLOCK_RE block_text 0 with
  | some m =>
    [{ pgm_name := inp.pgm_name, inc_name := inp.inc_name, type := S ("class_definition"),
       name := some (groupText block_text m.2 1), class_implementation := none,
       mode := none, start_line := sl, end_line := el, code := block_text }]
  | none =>
  match matchAt true CLIMP_BLOCK_RE block_text 0 with
  | some m =>
    let class_name := groupText block_text m.2 1
    let method_spans := finditer true METHOD_BLOCK_RE block_text
    let container_code :=
      match method_spans.head?, method_spans.getLast? with
      | some hd, some lst =>
        let header := rstripPy (block_text.take hd.1)
        let footer := lstripPy (block_text.drop lst.2.1)
        header ++ (if header.isEmpty ∨ footer.isEmpty then [] else [10]) ++ footer
      | _, _ => block_text
    { pgm_name := inp.pgm_name, inc_name := inp.inc_name, type := S ("class_impl"),
      name := some class_name, class_implementation := none, mode := none,
      start_line := sl, end_line := el, code := container_code } ::
    method_spans.map (mkMethod inp block_text start_off class_name)
  | none =>
  match matchAt true FUNC_BLOCK_RE block_text 0 with
  | some m =>
    [{ pgm_name := inp.pgm_name, inc_name := inp.inc_name, type := S ("function"),
       name := some (groupText block_text m.2 1), class_implementation := none,
       mode := none, start_line := sl, end_line := el, code := block_text }]
  | none =>
  match matchAt true MODULE_BLOCK_RE block_text 0 with
  | some m =>
    let mode := upperStr (groupText block_text m.2 2)
    [{ pgm_name := inp.pgm_name, inc_name := inp.inc_name, type := S ("module"),
       name := some (groupText block_text m.2 1), class_implementation := none,
       mode := if mode.isEmpty then none else some mode,
       start_line := sl, end_line := el, code := block_text }]
  | none =>
  match matchAt true MACRO_BLOCK_RE block_text 0 with
  | some m =>
    [{ pgm_name := inp.pgm_name, inc_name := inp.inc_name, type := S ("macro"),
       name := some (groupText block_text m.2 1), class_implementation := none,
       mode := none, start_line := sl, end_line := el, code := block_text }]
  | none => []

/-- The scan loop of `parse_abap_code_to_ndjson` (app_V6.py lines 206-240):
for each top-level match, emit the preceding gap when it holds any
non-whitespace (computing its end line at offset `s - 1`), then the block
records; after the last match, emit the non-blank tail. -/
def parse_loop (inp : AbapInput) (src : Str) :
    List (Nat × Nat × List (Nat × Nat × Nat)) → Nat → List Rec
  | [], last_end =>
    let tail := src.drop last_end
    if hasNonWs tail then
      [{ pgm_name := inp.pgm_name, inc_name := inp.inc_name, type := S ("raw_code"),
         name := some inp.inc_name, class_implementation := none, mode := none,
         start_line := (offsets_to_lines src last_end
           (if src.isEmpty then 0 else src.length - 1)).1,
         end_line := (offsets_to_lines src last_end
           (if src.isEmpty then 0 else src.length - 1)).2,
         code := tail }]
    else []
  | (s, e, _) :: restSpans, last_end =>
    let gap := sliceStr src last_end s
    (if hasNonWs gap then
      [{ pgm_name := inp.pgm_name, inc_name := inp.inc_name, type := S ("raw_code"),
         name := some inp.inc_name, class_implementation := none, mode := none,
         start_line := (offsets_to_lines src last_end (if 0 < s then s - 1 else 0)).1,
         end_line := (offsets_to_lines src last_end (if 0 < s then s - 1 else 0)).2,
         code := gap }]
     else [])
    ++ emit_block inp (sliceStr src s e) s e
    ++ parse_loop inp src restSpans e

/-- `parse_abap_code_to_ndjson` of app_V6.py (lines 202-254): scan the
source with `TOPLEVEL_RE`, interleave gap records and block records, and
fall back to a single raw_code record describing the whole input when
nothing was emitted. -/
def parse_abap_code_to_ndjson (inp : AbapInput) : List Rec :=
  let src := inp.code
  let results := parse_loop inp src (finditer true TOPLEVEL_RE src) 0
  if results.isEmpty then
    let total_lines := countNl src src.length + (if src.isEmpty then 0 else 1)
    [{ pgm_name := inp.pgm_name, inc_name := inp.inc_name, type := S ("raw_code"),
       name := none, class_implementation := none, mode := none,
       start_line := if total_lines = 0 then 0 else 1,
       end_line := total_lines, code := src }]
  else results

-- ---------- src/app.py (the earlier iteration; claims C7 and C10 cite it) ----------

namespace AppPy

/-- `(?ms)^\s*FORM\s+(\w+)\s*\.\s*.*?^\s*ENDFORM\s*\.(?:[ \t]*"[^\n]*)?\s*$`
(app.py line 15; case-sensitive). -/
def FORM_BLOCK_RE : RE :=
  cat [.bol, wsS, rstr ("FORM"), wsP, .grp 1 wordP, wsS, dotL, wsS, anyLz,
       closerRE ("ENDFORM")]

/-- app.py line 16 (case-sensitive). -/
def CLDEF_BLOCK_RE : RE :=
  cat [.bol, wsS, rstr ("CLASS"), wsP, .grp 1 wordP, wsP, rstr ("DEFINITION"), .wb,
       notNlS, dotL, wsS, anyLz, closerRE ("ENDCLASS")]

/-- app.py line 17 (case-sensitive). -/
def CLIMP_BLOCK_RE : RE :=
  cat [.bol, wsS, rstr ("CLASS"), wsP, .grp 1 wordP, wsP, rstr ("IMPLEMENTATION"),
       wsS, dotL, wsS, anyLz, closerRE ("ENDCLASS")]

/-- `(?ms)^\s*METHOD\s+(\w+)\s*\.\s*.*?^\s*ENDMETHOD\s*\.(?:[ \t]*"[^\n]*)?\s*$`
(app.py line 18; case-sensitive, and with the trailing `\s*$`). -/
def METHOD_BLOCK_RE : RE :=
  cat [.bol, wsS, rstr ("METHOD"), wsP, .grp 1 wordP, wsS, dotL, wsS, anyLz,
       closerRE ("ENDMETHOD")]

/-- app.py line 19 (case-sensitive). -/
def FUNC_BLOCK_RE : RE :=
  cat [.bol, wsS, rstr ("FUNCTION"), wsP, .grp 1 wordP, wsS, dotL, wsS, anyLz,
       closerRE ("ENDFUNCTION")]

/-- app.py line 20; the only app.py pattern compiled with `re.IGNORECASE`. -/
def MODULE_BLOCK_RE : RE :=
  cat [.bol, wsS, rstr ("MODULE"), wsP, .grp 1 wordP,
       .opt (.seq wsP (.grp 2 (.alt (rstr ("INPUT")) (rstr ("OUTPUT"))))),
       wsS, dotL, wsS, anyLz, closerRE ("ENDMODULE")]

/-- app.py line 21 (case-sensitive). -/
def MACRO_BLOCK_RE : RE :=
  cat [.bol, wsS, rstr ("DEFINE"), wsP, .grp 1 wordP, wsS, dotL, wsS, anyLz,
       closerRE ("END-OF-DEFINITION")]

/-- The combined pattern of app.py (lines 24-32), `(?ms)` only — note each
alternative ends with `KW\s*\..*$`, whose `.*` is DOTALL and so runs to the
end of the input, and there is no optional-comment clause. -/
def TOPLEVEL_RE : RE :=
  .alt (.grp 1 (cat [.bol, wsS, rstr ("FORM"), wsP, wordP, wsS, dotL, anyLz,
        .bol, wsS, rstr ("ENDFORM"), wsS, dotL, anyG, .eol]))
  (.alt (.grp 2 (cat [.bol, wsS, rstr ("CLASS"), wsP, wordP, wsP, rstr ("DEFINITION"), .wb,
        notNlS, dotL, anyLz, .bol, wsS, rstr ("ENDCLASS"), wsS, dotL, anyG, .eol]))
  (.alt (.grp 3 (cat [.bol, wsS, rstr ("CLASS"), wsP, wordP, wsP, rstr ("IMPLEMENTATION"),
        wsS, dotL, anyLz, .bol, wsS, rstr ("ENDCLASS"), wsS, dotL, anyG, .eol]))
  (.alt (.grp 4 (cat [.bol, wsS, rstr ("FUNCTION"), wsP, wordP, wsS, dotL, anyLz,
        .bol, wsS, rstr ("ENDFUNCTION"), wsS, dotL, anyG, .eol]))
  (.alt (.grp 5 (cat [.bol, wsS, rstr ("MODULE"), wsP, wordP,
        .opt (.seq wsP (.alt (rstr ("INPUT")) (rstr ("OUTPUT")))),
        wsS, dotL, anyLz, .bol, wsS, rstr ("ENDMODULE"), wsS, dotL, anyG, .eol]))
        (.grp 6 (cat [.bol, wsS, rstr ("DEFINE"), wsP, wordP, wsS, dotL, anyLz,
        .bol, wsS, rstr ("END-OF-DEFINITION"), wsS, dotL, anyG, .eol]))))))

/-- `_emit_block` of app.py (lines 39-135): same dispatch order as app_V6,
but the class_impl record keeps the full block text (no excision), and the
method pattern is the anchored case-sensitive one. -/
def emit_block (inp : AbapInput) (block_text : Str) (start_off end_off : Nat) :
    List Rec :=
  let sl := (offsets_to_lines inp.code start_off end_off).1
  let el := (offsets_to_lines inp.code start_off end_off).2
  match matchAt false FORM_BLOCK_RE block_text 0 with
  | some m =>
    [{ pgm_name := inp.pgm_name, inc_name := inp.inc_name, type := S ("perform"),
       name := some (groupText block_text m.2 1), class_implementation := none,
       mode := none, start_line := sl, end_line := el, code := block_text }]
  | none =>
  match matchAt false CLDEF_BLOCK_RE block_text 0 with
  | some m =>
    [{ pgm_name := inp.pgm_name, inc_name := inp.inc_name, type := S ("class_definition"),
       name := some (groupText block_text m.2 1), class_implementation := none,
       mode := none, start_line := sl, end_line := el, code := block_text }]
  | none =>
  match matchAt false CLIMP_BLOCK_RE block_text 0 with
  | some m =>
    let class_name := groupText block_text m.2 1
    { pgm_name := inp.pgm_name, inc_name := inp.inc_name, type := S ("class_impl"),
      name := some class_name, class_implementation := none, mode := none,
      start_line := sl, end_line := el, code := block_text } ::
    (finditer false METHOD_BLOCK_RE block_text).map
      (mkMethod inp block_text start_off class_name)
  | none =>
  match matchAt false FUNC_BLOCK_RE block_text 0 with
  | some m =>
    [{ pgm_name := inp.pgm_name, inc_name := inp.inc_name, type := S ("function"),
       name := some (groupText block_text m.2 1), class_implementation := none,
       mode := none, start_line := sl, end_line := el, code := block_text }]
  | none =>
  match matchAt true MODULE_BLOCK_RE block_text 0 with
  | some m =>
    let md := groupText block_text m.2 2
    [{ pgm_name := inp.pgm_name, inc_name := inp.inc_name, type := S ("module"),
       name := some (groupText block_text m.2 1), class_implementation := none,
       mode := if md.isEmpty then none else some (upperStr md),
       start_line := sl, end_line := el, code := block_text }]
  | none =>
  match matchAt false MACRO_BLOCK_RE block_text 0 with
  | some m =>
    [{ pgm_name := inp.pgm_name, inc_name := inp.inc_name, type := S ("macro"),
       name := some (groupText block_text m.2 1), class_implementation := none,
       mode := none, start_line := sl, end_line := el, code := block_text }]
  | none => []

/-- The scan loop of app.py `parse_abap_code_to_ndjson` (lines 141-168):
gap end line computed at offset `s` (not `s - 1`), tail end line at
`len(src)`; there is no zero-record fallback in this iteration. -/
def parse_loop (inp : AbapInput) (src : Str) :
    List (Nat × Nat × List (Nat × Nat × Nat)) → Nat → List Rec
  | [], last_end =>
    let tail := src.drop last_end
    if hasNonWs tail then
      [{ pgm_name := inp.pgm_name, inc_name := inp.inc_name, type := S ("raw_code"),
         name := some inp.inc_name, class_implementation := none, mode := none,
         start_line := (offsets_to_lines src last_end src.length).1,
         end_line := (offsets_to_lines src last_end src.length).2,
         code := tail }]
    else []
  | (s, e, _) :: restSpans, last_end =>
    let gap := sliceStr src last_end s
    (if hasNonWs gap then
      [{ pgm_name := inp.pgm_name, inc_name := inp.inc_name, type := S ("raw_code"),
         name := some inp.inc_name, class_implementation := none, mode := none,
         start_line := (offsets_to_lines src last_end s).1,
         end_line := (offsets_to_lines src last_end s).2,
         code := gap }]
     else [])
    ++ emit_block inp (sliceStr src s e) s e
    ++ parse_loop inp src restSpans e

/-- `parse_abap_code_to_ndjson` of app.py (lines 137-170). -/
def parse_abap_code_to_ndjson (inp : AbapInput) : List Rec :=
  parse_loop inp inp.code (finditer false TOPLEVEL_RE inp.code) 0

end AppPy

-- ---------- claim-side definitions used by the theorems ----------

/-- The first per-kind pattern of app_V6's `_emit_block` that accepts a block
text, i.e. the kind the dispatch assigns (1 = perform .. 6 = macro record). -/
def kindIndex (bt : Str) : Option Nat :=
  if (matchAt true FORM_BLOCK_RE bt 0).isSome then some 1
  else if (matchAt true CLDEF_BLOCK_RE bt 0).isSome then some 2
  else if (matchAt true CLIMP_BLOCK_RE bt 0).isSome then some 3
  else if (matchAt true FUNC_BLOCK_RE bt 0).isSome then some 4
  else if (matchAt true MODULE_BLOCK_RE bt 0).isSome then some 5
  else if (matchAt true MACRO_BLOCK_RE bt 0).isSome then some 6
  else none

/-- The (start, end) offsets of the nested method matches of a class body. -/
def methodSpansOf (bt : Str) : List (Nat × Nat) :=
  (finditer true METHOD_BLOCK_RE bt).map (fun t => (t.1, t.2.1))

/-- Modelled from the claim wording of C4: the original span with exactly
the embedded method spans' text removed and nothing else lost (all
non-method text kept in place).  Compared against the code's container. -/
def keepOutside (bt : Str) : Nat → List (Nat × Nat) → Str
  | pos, [] => bt.drop pos
  | pos, (s, e) :: rest => sliceStr bt pos s ++ keepOutside bt e rest

/-- The container text the code actually produces for a class body with the
given method spans (stated separately so the amended C4 can be read off):
text before the first method rstripped, text after the last method
lstripped, joined by one line break when both are non-empty; the full text
when there are no methods.  Text strictly between method spans is dropped. -/
def amendedContainer (bt : Str) (spans : List (Nat × Nat)) : Str :=
  match spans.head?, spans.getLast? with
  | some hd, some lst =>
    let header := rstripPy (bt.take hd.1)
    let footer := lstripPy (bt.drop lst.2)
    header ++ (if header.isEmpty ∨ footer.isEmpty then [] else [10]) ++ footer
  | _, _ => bt

/-- Checker for the nesting invariant (claim C6): walking the record list,
a `method` record is legal only when the most recent non-method record is a
`class_impl` whose name it references, every record between that class and
the method is a method of the same class, and methods appear in
non-decreasing start_line (source) order. -/
def wellNested (cur : Option Str) (lastLn : Nat) : List Rec → Bool
  | [] => true
  | r :: rs =>
    if r.type = S ("method") then
      match cur with
      | some c =>
        decide (r.class_implementation = some c) && decide (lastLn ≤ r.start_line)
          && wellNested cur r.start_line rs
      | none => false
    else if r.type = S ("class_impl") then
      wellNested r.name r.start_line rs
    else
      wellNested none r.start_line rs

/-- 1-based line of an offset (the common body of `_offsets_to_lines`). -/
def lineOf (src : Str) (k : Nat) : Nat :=
  if src.isEmpty then 0 else countNl src k + 1

/-- Interleaving of gaps and matched spans, exactly as the scan loop walks
them; used to state coverage. -/
def tileFrom (src : Str) : Nat → List (Nat × Nat × List (Nat × Nat × Nat)) → Str
  | last_end, [] => src.drop last_end
  | last_end, (s, e, _) :: rest =>
    sliceStr src last_end s ++ sliceStr src s e ++ tileFrom src e rest

/-- Two matcher states over case-variant inputs: same position and
captures, case-equal previous character and remaining input. -/
def stRel (u v : MSt) : Prop :=
  u.pos = v.pos ∧ u.caps = v.caps ∧ u.prev.map lowerN = v.prev.map lowerN
    ∧ u.rest.map lowerN = v.rest.map lowerN

/-- Relation between two matcher outcomes: both fail, or succeed with
related final states. -/
def oRel : Option MSt → Option MSt → Prop
  | none, none => True
  | some a, some b => stRel a b
  | _, _ => False

/-- Well-formedness of a span list: chained between `lb` and `len`. -/
def SpansOK (len : Nat) : Nat → List (Nat × Nat × List (Nat × Nat × Nat)) → Prop
  | _, [] => True
  | lb, (s, e, _) :: rest => lb ≤ s ∧ s ≤ e ∧ e ≤ len ∧ SpansOK len e rest

-- ---------- the matcher only moves forward ----------

/-- `v` is reachable from `u` by consuming input. -/
def StepsTo (u v : MSt) : Prop :=
  u.pos ≤ v.pos ∧ v.pos + v.rest.length = u.pos + u.rest.length

theorem stepsTo_refl (u : MSt) : StepsTo u u := ⟨Nat.le_refl _, rfl⟩

theorem stepsTo_trans {u v w : MSt} (h1 : StepsTo u v) (h2 : StepsTo v w) :
    StepsTo u w :=
  ⟨Nat.le_trans h1.1 h2.1, by have a := h1.2; have b := h2.2; omega⟩

theorem stepsTo_adv {st : MSt} {d : Nat} {tl : Str} (h : st.rest = d :: tl) :
    StepsTo st (adv st d tl) := by
  refine ⟨Nat.le_succ _, ?_⟩
  simp [adv, h]
  omega

/-- If the matcher succeeds, the continuation was invoked on a state
reachable from the start state (so matches never move backwards and never
leave the input). -/
theorem mrun_some {ci : Bool} :
    ∀ (fuel : Nat) (r : RE) (st : MSt) (k : MSt → Option MSt) (res : MSt),
      mrun ci fuel r st k = some res →
      ∃ st2, StepsTo st st2 ∧ k st2 = some res := by
  intro fuel
  induction fuel with
  | zero => intro r st k res h; simp [mrun] at h
  | succ n ih =>
    intro r st k res h
    cases r with
    | eps =>
      exact ⟨st, stepsTo_refl st, h⟩
    | lit c =>
      simp only [mrun] at h
      split at h
      · exact absurd h (by simp)
      · rename_i d tl hrest
        split at h
        · exact ⟨adv st d tl, stepsTo_adv hrest, h⟩
        · exact absurd h (by simp)
    | cls cc =>
      simp only [mrun] at h
      split at h
      · exact absurd h (by simp)
      · rename_i d tl hrest
        split at h
        · exact ⟨adv st d tl, stepsTo_adv hrest, h⟩
        · exact absurd h (by simp)
    | seq a b =>
      simp only [mrun] at h
      obtain ⟨st2, h12, h2⟩ := ih a st _ res h
      obtain ⟨st3, h23, h3⟩ := ih b st2 k res h2
      exact ⟨st3, stepsTo_trans h12 h23, h3⟩
    | alt a b =>
      simp only [mrun] at h
      cases ha : mrun ci n a st k with
      | some v =>
        rw [ha] at h
        obtain ⟨st2, h12, h2⟩ := ih a st k v ha
        cases h; exact ⟨st2, h12, h2⟩
      | none =>
        rw [ha] at h
        exact ih b st k res h
    | star lz a =>
      simp only [mrun] at h
      cases lz with
      | true =>
        simp only [if_pos] at h
        cases hk : k st with
        | some v => rw [hk] at h; cases h; exact ⟨st, stepsTo_refl st, hk⟩
        | none =>
          rw [hk] at h
          obtain ⟨st2, h12, h2⟩ := ih a st _ res h
          by_cases hp : st2.pos = st.pos
          · rw [if_pos hp] at h2; exact absurd h2 (by simp)
          · rw [if_neg hp] at h2
            obtain ⟨st3, h23, h3⟩ := ih (.star true a) st2 k res h2
            exact ⟨st3, stepsTo_trans h12 h23, h3⟩
      | false =>
        simp only [Bool.false_eq_true, if_false] at h
        cases ha : mrun ci n a st
            (fun st2 => if st2.pos = st.pos then none
              else mrun ci n (.star false a) st2 k) with
        | some v =>
          rw [ha] at h
          cases h
          obtain ⟨st2, h12, h2⟩ := ih a st _ res ha
          by_cases hp : st2.pos = st.pos
          · rw [if_pos hp] at h2; exact absurd h2 (by simp)
          · rw [if_neg hp] at h2
            obtain ⟨st3, h23, h3⟩ := ih (.star false a) st2 k res h2
            exact ⟨st3, stepsTo_trans h12 h23, h3⟩
        | none =>
          rw [ha] at h
          exact ⟨st, stepsTo_refl st, h⟩
    | opt a =>
      simp only [mrun] at h
      cases ha : mrun ci n a st k with
      | some v =>
        rw [ha] at h; cases h
        obtain ⟨st2, h12, h2⟩ := ih a st k res ha
        exact ⟨st2, h12, h2⟩
      | none =>
        rw [ha] at h
        exact ⟨st, stepsTo_refl st, h⟩
    | bol =>
      simp only [mrun] at h
      by_cases hp : st.pos = 0 ∨ st.prev = some 10
      · rw [if_pos hp] at h; exact ⟨st, stepsTo_refl st, h⟩
      · rw [if_neg hp] at h; exact absurd h (by simp)
    | eol =>
      simp only [mrun] at h
      split at h
      · exact ⟨st, stepsTo_refl st, h⟩
      · split at h
        · exact ⟨st, stepsTo_refl st, h⟩
        · exact absurd h (by simp)
    | wb =>
      simp only [mrun] at h
      by_cases hp : isWordOpt st.prev ≠ isWordOpt st.rest.head?
      · rw [if_pos hp] at h; exact ⟨st, stepsTo_refl st, h⟩
      · rw [if_neg hp] at h; exact absurd h (by simp)
    | grp i a =>
      simp only [mrun] at h
      obtain ⟨st2, h12, h2⟩ := ih a st _ res h
      exact ⟨{ st2 with caps := (i, st.pos, st2.pos) :: st2.caps },
        ⟨h12.1, h12.2⟩, h2⟩

/-- A successful anchored match ends at or after its start and inside the
input (when started inside the input). -/
theorem matchAt_bounds {ci : Bool} {r : RE} {src : Str} {pos e : Nat}
    {caps : List (Nat × Nat × Nat)} (hpos : pos ≤ src.length)
    (h : matchAt ci r src pos = some (e, caps)) : pos ≤ e ∧ e ≤ src.length := by
  unfold matchAt at h
  cases hm : mrun ci (fuelFor src) r
      ⟨pos, if pos = 0 then none else charAt src (pos - 1), src.drop pos, []⟩
      (fun st => some st) with
  | none => rw [hm] at h; exact absurd h (by simp)
  | some st =>
    rw [hm] at h
    obtain ⟨st2, hstep, hk⟩ := mrun_some _ _ _ _ _ hm
    simp only [Option.some.injEq] at hk h
    subst hk
    obtain ⟨he, hcap⟩ := Prod.mk.injEq .. ▸ h
    have h1 : pos ≤ st2.pos := hstep.1
    have h2 : st2.pos + st2.rest.length = pos + (src.drop pos).length := hstep.2
    simp only [List.length_drop] at h2
    constructor
    · omega
    · omega

/-- A successful search result: found at or after the scan start, ends
within the input. -/
theorem searchFrom_bounds {ci : Bool} {r : RE} {src : Str} :
    ∀ (n pos : Nat) {s e : Nat} {caps : List (Nat × Nat × Nat)},
      pos + n ≤ src.length + 1 →
      searchFrom ci r src pos n = some (s, e, caps) →
      pos ≤ s ∧ s ≤ e ∧ e ≤ src.length := by
  intro n
  induction n with
  | zero => intro pos s e caps _ h; simp [searchFrom] at h
  | succ m ih =>
    intro pos s e caps hn h
    simp only [searchFrom] at h
    cases hm : matchAt ci r src pos with
    | some t =>
      rw [hm] at h
      simp only [Option.some.injEq] at h
      obtain ⟨rfl, rfl, rfl⟩ := Prod.mk.injEq .. ▸ h
      have := matchAt_bounds (by omega) hm
      exact ⟨Nat.le_refl _, this.1, this.2⟩
    | none =>
      rw [hm] at h
      have := ih (pos + 1) (by omega) h
      exact ⟨by omega, this.2.1, this.2.2⟩

theorem spansOK_mono {len lb lb' : Nat}
    {spans : List (Nat × Nat × List (Nat × Nat × Nat))}
    (hle : lb' ≤ lb) (h : SpansOK len lb spans) : SpansOK len lb' spans := by
  cases spans with
  | nil => trivial
  | cons t rest =>
    obtain ⟨s, e, caps⟩ := t
    exact ⟨Nat.le_trans hle h.1, h.2.1, h.2.2.1, h.2.2.2⟩

theorem finditerAux_ok {ci : Bool} {r : RE} {src : Str} :
    ∀ (n pos : Nat), SpansOK src.length pos (finditerAux ci r src pos n) := by
  intro n
  induction n with
  | zero => intro pos; simp [finditerAux, SpansOK]
  | succ m ih =>
    intro pos
    simp only [finditerAux]
    cases hs : searchFrom ci r src pos (src.length + 1 - pos) with
    | none => trivial
    | some t =>
      obtain ⟨s, e, caps⟩ := t
      by_cases hp : pos ≤ src.length + 1
      · have hb := searchFrom_bounds (src.length + 1 - pos) pos (by omega) hs
        refine ⟨hb.1, hb.2.1, hb.2.2, ?_⟩
        by_cases hlt : s < e
        · simp only [if_pos hlt]; exact ih e
        · simp only [if_neg hlt]
          exact spansOK_mono (Nat.le_succ e) (ih (e + 1))
      · exfalso
        have : src.length + 1 - pos = 0 := by omega
        rw [this] at hs
        simp [searchFrom] at hs

/-- The spans produced by `finditer` are chained and lie inside the input. -/
theorem finditer_ok {ci : Bool} {r : RE} {src : Str} :
    SpansOK src.length 0 (finditer ci r src) :=
  finditerAux_ok _ 0

-- ---------- lines and slices ----------

theorem countNl_mono {src : Str} {a b : Nat} (h : a ≤ b) :
    countNl src a ≤ countNl src b := by
  unfold countNl
  have h1 : src.take a = (src.take b).take a := by
    rw [List.take_take, Nat.min_eq_left h]
  rw [h1]
  exact List.Sublist.length_le (List.Sublist.filter _ (List.take_sublist _ _))

theorem lineOf_mono {src : Str} {a b : Nat} (h : a ≤ b) :
    lineOf src a ≤ lineOf src b := by
  unfold lineOf
  split
  · exact Nat.le_refl _
  · exact Nat.succ_le_succ (countNl_mono h)

theorem lineOf_pos {src : Str} (h : ¬ src.isEmpty) (k : Nat) : 1 ≤ lineOf src k := by
  unfold lineOf
  rw [if_neg h]
  omega

theorem offsets_fst (src : Str) (a b : Nat) :
    (offsets_to_lines src a b).1 = lineOf src a := rfl

theorem offsets_snd (src : Str) (a b : Nat) :
    (offsets_to_lines src a b).2 = lineOf src b := rfl

theorem sliceStr_length (src : Str) (a b : Nat) :
    (sliceStr src a b).length = min (b - a) (src.length - a) := by
  simp [sliceStr]

theorem sliceStr_append {src : Str} {a b c : Nat} (hab : a ≤ b) (hbc : b ≤ c) :
    sliceStr src a b ++ sliceStr src b c = sliceStr src a c := by
  unfold sliceStr
  have hd : src.drop b = (src.drop a).drop (b - a) := by
    rw [List.drop_drop]
    congr 1
    omega
  rw [hd, ← List.take_add]
  congr 1
  omega

theorem sliceStr_append_drop {src : Str} {a b : Nat} (hab : a ≤ b) :
    sliceStr src a b ++ src.drop b = src.drop a := by
  unfold sliceStr
  have hd : src.drop b = (src.drop a).drop (b - a) := by
    rw [List.drop_drop]
    congr 1
    omega
  rw [hd, List.take_append_drop]

/-- Tiling: the interleaved gaps and spans of a chained span list rebuild
the suffix they cover. -/
theorem tileFrom_eq {src : Str} :
    ∀ (spans : List (Nat × Nat × List (Nat × Nat × Nat))) (lb : Nat),
      SpansOK src.length lb spans → tileFrom src lb spans = src.drop lb := by
  intro spans
  induction spans with
  | nil => intro lb _; rfl
  | cons t rest ih =>
    intro lb hok
    obtain ⟨s, e, caps⟩ := t
    obtain ⟨h1, h2, h3, h4⟩ := hok
    simp only [tileFrom]
    rw [ih e h4, List.append_assoc, sliceStr_append_drop h2, sliceStr_append_drop h1]

theorem countNl_zero (src : Str) : countNl src 0 = 0 := by simp [countNl]

/-- C1 counterexample: between two FORM blocks separated by a blank line
boundary, the scan leaves a whitespace-only gap (the newline at offset 16)
which is dropped, so concatenating the emitted record texts (there are no
methods to re-insert: both records are `perform`) does not rebuild the
source. -/
theorem coverage_counterexample :
    ((parse_abap_code_to_ndjson ⟨S ("P"), S ("I"),
        S ("FORM f.\nENDFORM.\nFORM g.\nENDFORM.")⟩).map Rec.type
      = [S ("perform"), S ("perform")])
    ∧ ((parse_abap_code_to_ndjson ⟨S ("P"), S ("I"),
        S ("FORM f.\nENDFORM.\nFORM g.\nENDFORM.")⟩).map Rec.code).flatten
      ≠ S ("FORM f.\nENDFORM.\nFORM g.\nENDFORM.") := by
  constructor
  · decide
  · decide

/-- C1 (amended): for every input, concatenating in scan order every gap
text — including the whitespace-only gaps that the parser drops — with the
full text of every matched top-level span (i.e. re-inserting into each
class_impl container everything excised from it: the method bodies, any
text between adjacent method bodies, and the whitespace trimmed at the
excision boundaries) reconstructs the source exactly.  `tileFrom` walks
exactly the gap/span interleaving that `parse_abap_code_to_ndjson` walks
over `finditer true TOPLEVEL_RE`. -/
theorem coverage_tiling (src : Str) :
    tileFrom src 0 (finditer true TOPLEVEL_RE src) = src := by
  rw [tileFrom_eq _ 0 finditer_ok, List.drop_zero]

/-- C2: the segmentation is a total function (it is defined here as a total
Lean function evaluating every input) and, in the app_V6 iteration, always
returns at least the fallback record, for every input including the empty
one. -/
theorem parse_total (inp : AbapInput) :
    1 ≤ (parse_abap_code_to_ndjson inp).length := by
  simp only [parse_abap_code_to_ndjson]
  split
  · simp
  · rename_i h
    have hne : parse_loop inp inp.code (finditer true TOPLEVEL_RE inp.code) 0 ≠ [] := by
      simpa [List.isEmpty_iff] using h
    exact Nat.succ_le_of_lt (List.length_pos.mpr hne)

theorem hasNonWs_ne_nil {l : Str} (h : hasNonWs l = true) : l ≠ [] := by
  intro hl; subst hl; simp [hasNonWs] at h

/-- C3: whenever the top-level scan recognizes no block (including
whitespace-only and empty inputs), app_V6 emits exactly one raw_code record
whose text is the whole input, starting at line 1 when the input is
non-empty. -/
theorem noblock_single_raw (inp : AbapInput)
    (h : finditer true TOPLEVEL_RE inp.code = []) :
    ∃ r, parse_abap_code_to_ndjson inp = [r] ∧ r.type = S ("raw_code")
      ∧ r.code = inp.code ∧ (inp.code ≠ [] → r.start_line = 1) := by
  simp only [parse_abap_code_to_ndjson, h]
  simp only [parse_loop, List.drop_zero]
  by_cases hw : hasNonWs inp.code
  · rw [if_pos hw]
    have hne : inp.code ≠ [] := hasNonWs_ne_nil hw
    simp only [List.isEmpty_cons, if_false]
    refine ⟨_, rfl, rfl, rfl, fun _ => ?_⟩
    simp only [offsets_fst, lineOf, countNl_zero]
    rw [if_neg (by simpa [List.isEmpty_iff] using hne)]
  · rw [if_neg hw]
    simp only [List.isEmpty_nil, if_true]
    refine ⟨_, rfl, rfl, rfl, fun hne => ?_⟩
    have : countNl inp.code inp.code.length + (if inp.code.isEmpty then 0 else 1) ≠ 0 := by
      rw [if_neg (by simpa [List.isEmpty_iff] using hne)]
      omega
    simp only [if_neg this]

/-- C3 witness: a whitespace-and-text input with no recognizable block. -/
theorem noblock_single_raw_witness :
    finditer true TOPLEVEL_RE (S (" \nabc")) = [] ∧
      (∃ r, parse_abap_code_to_ndjson ⟨S ("P"), S ("I"), S (" \nabc")⟩ = [r]
        ∧ r.type = S ("raw_code") ∧ r.code = S (" \nabc")
        ∧ (S (" \nabc") ≠ [] → r.start_line = 1)) := by
  have h : finditer true TOPLEVEL_RE (S (" \nabc")) = [] := by decide
  exact ⟨h, noblock_single_raw ⟨S ("P"), S ("I"), S (" \nabc")⟩ h⟩

theorem mkMethod_type (inp : AbapInput) (bt : Str) (s : Nat) (cname : Str)
    (ms : Nat × Nat × List (Nat × Nat × Nat)) :
    (mkMethod inp bt s cname ms).type = S ("method") := rfl

theorem mkMethod_owner (inp : AbapInput) (bt : Str) (s : Nat) (cname : Str)
    (ms : Nat × Nat × List (Nat × Nat × Nat)) :
    (mkMethod inp bt s cname ms).class_implementation = some cname := rfl

theorem mkMethod_start (inp : AbapInput) (bt : Str) (s : Nat) (cname : Str)
    (ms : Nat × Nat × List (Nat × Nat × Nat)) :
    (mkMethod inp bt s cname ms).start_line = lineOf inp.code (s + ms.1) := rfl

theorem mkMethod_end (inp : AbapInput) (bt : Str) (s : Nat) (cname : Str)
    (ms : Nat × Nat × List (Nat × Nat × Nat)) :
    (mkMethod inp bt s cname ms).end_line = lineOf inp.code (s + ms.2.1) := rfl

/-- Method records generated from a chained span list: non-decreasing
start lines, all bounded by the lines of the class span, starts before
ends. -/
theorem methods_chain_facts (inp : AbapInput) (bt : Str) (s : Nat) (cname : Str) :
    ∀ (mspans : List (Nat × Nat × List (Nat × Nat × Nat))) (lb : Nat),
      SpansOK bt.length lb mspans →
      List.Chain' (fun a b => a.start_line ≤ b.start_line)
          (mspans.map (mkMethod inp bt s cname))
      ∧ ∀ r ∈ mspans.map (mkMethod inp bt s cname),
          lineOf inp.code (s + lb) ≤ r.start_line
          ∧ r.start_line ≤ lineOf inp.code (s + bt.length)
          ∧ r.start_line ≤ r.end_line := by
  intro mspans
  induction mspans with
  | nil => intro lb _; exact ⟨List.chain'_nil, by simp⟩
  | cons ms rest ih =>
    intro lb hok
    obtain ⟨m1, m2, mcaps⟩ := ms
    obtain ⟨h1, h2, h3, h4⟩ := hok
    obtain ⟨ihc, ihb⟩ := ih m2 h4
    constructor
    · rw [List.map_cons, List.chain'_cons']
      refine ⟨?_, ihc⟩
      intro y hy
      have hy2 : y ∈ rest.map (mkMethod inp bt s cname) := List.mem_of_mem_head? hy
      have := (ihb y hy2).1
      calc (mkMethod inp bt s cname (m1, m2, mcaps)).start_line
          = lineOf inp.code (s + m1) := mkMethod_start ..
        _ ≤ lineOf inp.code (s + m2) := lineOf_mono (by omega)
        _ ≤ y.start_line := this
    · intro r hr
      rw [List.map_cons, List.mem_cons] at hr
      rcases hr with rfl | hr
      · rw [mkMethod_start, mkMethod_end]
        dsimp only
        exact ⟨lineOf_mono (by omega), lineOf_mono (by omega), lineOf_mono (by omega)⟩
      · have := ihb r hr
        exact ⟨Nat.le_trans (lineOf_mono (by omega)) this.1, this.2.1, this.2.2⟩

/-- Structural description of `_emit_block`: nothing, a single non-method
non-class record spanning the block lines, or a class record followed by
the method records of the nested method matches. -/
theorem emit_block_shape (inp : AbapInput) (bt : Str) (s e : Nat) :
    emit_block inp bt s e = []
    ∨ (∃ r, emit_block inp bt s e = [r]
        ∧ r.start_line = lineOf inp.code s ∧ r.end_line = lineOf inp.code e
        ∧ r.type ≠ S ("method") ∧ r.type ≠ S ("class_impl") ∧ r.code = bt)
    ∨ (∃ cname container,
        emit_block inp bt s e =
          { pgm_name := inp.pgm_name, inc_name := inp.inc_name,
            type := S ("class_impl"), name := some cname,
            class_implementation := none, mode := none,
            start_line := lineOf inp.code s, end_line := lineOf inp.code e,
            code := container } ::
          (finditer true METHOD_BLOCK_RE bt).map (mkMethod inp bt s cname)) := by
  simp only [emit_block]
  cases h1 : matchAt true FORM_BLOCK_RE bt 0 with
  | some m => refine Or.inr (Or.inl ⟨_, rfl, rfl, rfl, ?_, ?_, rfl⟩) <;> (dsimp only; decide)
  | none =>
  cases h2 : matchAt true CLDEF_BLOCK_RE bt 0 with
  | some m => refine Or.inr (Or.inl ⟨_, rfl, rfl, rfl, ?_, ?_, rfl⟩) <;> (dsimp only; decide)
  | none =>
  cases h3 : matchAt true CLIMP_BLOCK_RE bt 0 with
  | some m => exact Or.inr (Or.inr ⟨_, _, rfl⟩)
  | none =>
  cases h4 : matchAt true FUNC_BLOCK_RE bt 0 with
  | some m => refine Or.inr (Or.inl ⟨_, rfl, rfl, rfl, ?_, ?_, rfl⟩) <;> (dsimp only; decide)
  | none =>
  cases h5 : matchAt true MODULE_BLOCK_RE bt 0 with
  | some m => refine Or.inr (Or.inl ⟨_, rfl, rfl, rfl, ?_, ?_, rfl⟩) <;> (dsimp only; decide)
  | none =>
  cases h6 : matchAt true MACRO_BLOCK_RE bt 0 with
  | some m => refine Or.inr (Or.inl ⟨_, rfl, rfl, rfl, ?_, ?_, rfl⟩) <;> (dsimp only; decide)
  | none => exact Or.inl rfl

/-- Line facts for one emitted block: non-decreasing chain, all records
between the block's start and end lines, starts before ends. -/
theorem emit_block_facts (inp : AbapInput) (bt : Str) (s e : Nat)
    (hse : s ≤ e) (hbl : bt.length ≤ e - s) :
    List.Chain' (fun a b => a.start_line ≤ b.start_line) (emit_block inp bt s e)
    ∧ ∀ r ∈ emit_block inp bt s e,
        lineOf inp.code s ≤ r.start_line ∧ r.start_line ≤ lineOf inp.code e
        ∧ r.start_line ≤ r.end_line := by
  rcases emit_block_shape inp bt s e with h | ⟨r, h, hsl, hel, _, _, _⟩
    | ⟨cname, container, h⟩
  · rw [h]; exact ⟨List.chain'_nil, by simp⟩
  · rw [h]
    refine ⟨List.chain'_singleton r, ?_⟩
    intro r' hr'
    rw [List.mem_singleton] at hr'
    subst hr'
    rw [hsl, hel]
    exact ⟨Nat.le_refl _, lineOf_mono hse, lineOf_mono hse⟩
  · rw [h]
    have hsb : s + bt.length ≤ e := by omega
    obtain ⟨hc, hb⟩ := methods_chain_facts inp bt s cname
      (finditer true METHOD_BLOCK_RE bt) 0 finditer_ok
    constructor
    · rw [List.chain'_cons']
      refine ⟨?_, hc⟩
      intro y hy
      have hy2 := List.mem_of_mem_head? hy
      have := (hb y hy2).1
      simpa using Nat.le_trans (lineOf_mono (Nat.le_add_right s 0)) this
    · intro r hr
      rw [List.mem_cons] at hr
      rcases hr with rfl | hr
      · exact ⟨Nat.le_refl _, lineOf_mono hse, lineOf_mono hse⟩
      · obtain ⟨hb1, hb2, hb3⟩ := hb r hr
        refine ⟨?_, Nat.le_trans hb2 (lineOf_mono hsb), hb3⟩
        exact Nat.le_trans (lineOf_mono (Nat.le_add_right s 0)) hb1

theorem mem_of_getLast? {α : Type} {l : List α} {x : α} (h : x ∈ l.getLast?) :
    x ∈ l := by
  obtain ⟨hne, rfl⟩ := List.mem_getLast?_eq_getLast h
  exact List.getLast_mem hne

theorem hasNonWs_sliceStr_lt {src : Str} {a b : Nat}
    (h : hasNonWs (sliceStr src a b) = true) : a < b ∧ a < src.length := by
  have hne := hasNonWs_ne_nil h
  have hl : 0 < (sliceStr src a b).length := List.length_pos.mpr hne
  rw [sliceStr_length] at hl
  omega

theorem hasNonWs_drop_lt {src : Str} {a : Nat}
    (h : hasNonWs (src.drop a) = true) : a < src.length := by
  have hne := hasNonWs_ne_nil h
  have hl : 0 < (src.drop a).length := List.length_pos.mpr hne
  rw [List.length_drop] at hl
  omega

theorem not_isEmpty_of_lt {src : Str} {a : Nat} (h : a < src.length) :
    ¬ src.isEmpty = true := by
  intro hc
  rw [List.isEmpty_iff] at hc
  rw [hc] at h
  simp at h

/-- Line facts for the whole scan loop: records come out in non-decreasing
start_line order, never before the line of the loop's current offset, and
every record's range is ordered. -/
theorem parse_loop_facts (inp : AbapInput) :
    ∀ (spans : List (Nat × Nat × List (Nat × Nat × Nat))) (lb : Nat),
      SpansOK inp.code.length lb spans →
      List.Chain' (fun a b => a.start_line ≤ b.start_line)
          (parse_loop inp inp.code spans lb)
      ∧ ∀ r ∈ parse_loop inp inp.code spans lb,
          lineOf inp.code lb ≤ r.start_line ∧ r.start_line ≤ r.end_line := by
  intro spans
  induction spans with
  | nil =>
    intro lb _
    simp only [parse_loop]
    by_cases hw : hasNonWs (inp.code.drop lb)
    · rw [if_pos hw]
      have hlt := hasNonWs_drop_lt hw
      have hne := not_isEmpty_of_lt hlt
      refine ⟨List.chain'_singleton _, ?_⟩
      intro r hr
      rw [List.mem_singleton] at hr
      subst hr
      dsimp only
      rw [offsets_fst, offsets_snd, if_neg hne]
      exact ⟨Nat.le_refl _, lineOf_mono (by omega)⟩
    · rw [if_neg hw]
      exact ⟨List.chain'_nil, by simp⟩
  | cons sp rest ih =>
    intro lb hok
    obtain ⟨s, e, caps⟩ := sp
    obtain ⟨h1, h2, h3, h4⟩ := hok
    obtain ⟨ihc, ihb⟩ := ih e h4
    have hbl : (sliceStr inp.code s e).length ≤ e - s := by
      rw [sliceStr_length]; omega
    obtain ⟨ebc, ebb⟩ := emit_block_facts inp (sliceStr inp.code s e) s e h2 hbl
    have htail : List.Chain' (fun a b => a.start_line ≤ b.start_line)
        (emit_block inp (sliceStr inp.code s e) s e ++ parse_loop inp inp.code rest e) := by
      rw [List.chain'_append]
      refine ⟨ebc, ihc, ?_⟩
      intro x hx y hy
      have hx2 := (ebb x (mem_of_getLast? hx)).2.1
      have hy2 := (ihb y (List.mem_of_mem_head? hy)).1
      omega
    have hmem2 : ∀ r ∈ emit_block inp (sliceStr inp.code s e) s e
        ++ parse_loop inp inp.code rest e,
        lineOf inp.code s ≤ r.start_line ∧ r.start_line ≤ r.end_line := by
      intro r hr
      rw [List.mem_append] at hr
      rcases hr with hr | hr
      · obtain ⟨hb1, _, hb3⟩ := ebb r hr
        exact ⟨hb1, hb3⟩
      · obtain ⟨hb1, hb3⟩ := ihb r hr
        exact ⟨Nat.le_trans (lineOf_mono h2) hb1, hb3⟩
    simp only [parse_loop]
    by_cases hw : hasNonWs (sliceStr inp.code lb s)
    · rw [if_pos hw]
      obtain ⟨hlt, hlen⟩ := hasNonWs_sliceStr_lt hw
      rw [List.append_assoc, List.singleton_append]
      constructor
      · rw [List.chain'_cons']
        refine ⟨?_, htail⟩
        intro y hy
        have := (hmem2 y (List.mem_of_mem_head? hy)).1
        dsimp only
        rw [offsets_fst]
        exact Nat.le_trans (lineOf_mono h1) this
      · intro r hr
        rw [List.mem_cons] at hr
        rcases hr with rfl | hr
        · dsimp only
          rw [offsets_fst, offsets_snd, if_pos (by omega : 0 < s)]
          exact ⟨Nat.le_refl _, lineOf_mono (by omega)⟩
        · have := hmem2 r hr
          exact ⟨Nat.le_trans (lineOf_mono h1) this.1, this.2⟩
    · rw [if_neg hw, List.append_assoc, List.nil_append]
      refine ⟨htail, ?_⟩
      intro r hr
      have := hmem2 r hr
      exact ⟨Nat.le_trans (lineOf_mono h1) this.1, this.2⟩

/-- C5: adjacent records of the app_V6 output are in non-decreasing
start_line order, except (as the claim allows, though the bound in fact
also holds there) the adjacency between a class_impl record and its own
method records. -/
theorem ordering_claim (inp : AbapInput) :
    List.Chain' (fun a b =>
      (a.type = S ("class_impl") ∧ b.type = S ("method")
        ∧ b.class_implementation = a.name)
      ∨ a.start_line ≤ b.start_line) (parse_abap_code_to_ndjson inp) := by
  have hbase : List.Chain' (fun a b => a.start_line ≤ b.start_line)
      (parse_abap_code_to_ndjson inp) := by
    simp only [parse_abap_code_to_ndjson]
    split
    · exact List.chain'_singleton _
    · exact (parse_loop_facts inp _ 0 finditer_ok).1
  exact hbase.imp (fun a b h => Or.inr h)

/-- C9 counterexample: on the empty input the fallback record carries
`start_line = end_line = 0`, not 1-based values. -/
theorem lines_counterexample :
    (parse_abap_code_to_ndjson ⟨S ("P"), S ("I"), []⟩).length = 1
    ∧ ∀ r ∈ parse_abap_code_to_ndjson ⟨S ("P"), S ("I"), []⟩,
        r.start_line = 0 ∧ r.end_line = 0 := by
  constructor
  · decide
  · decide

/-- C9 (amended): for every non-empty input, every emitted record has
1-based ordered line numbers (`1 ≤ start_line ≤ end_line`), computed by
newline counting over the original source; only the empty input's fallback
record carries the 0/0 range. -/
theorem lines_amended (inp : AbapInput) (h : inp.code ≠ []) :
    ∀ r ∈ parse_abap_code_to_ndjson inp,
      1 ≤ r.start_line ∧ r.start_line ≤ r.end_line := by
  have hne : ¬ inp.code.isEmpty = true := by
    simpa [List.isEmpty_iff] using h
  intro r hr
  simp only [parse_abap_code_to_ndjson] at hr
  split at hr
  · rw [List.mem_singleton] at hr
    subst hr
    dsimp only
    refine ⟨?_, ?_⟩ <;> split <;> omega
  · have := (parse_loop_facts inp _ 0 finditer_ok).2 r hr
    exact ⟨Nat.le_trans (lineOf_pos hne 0) this.1, this.2⟩

/-- C9 witness: a concrete non-empty input for the amended statement. -/
theorem lines_amended_witness :
    (S ("FORM f.\nENDFORM.") ≠ ([] : Str))
    ∧ ∀ r ∈ parse_abap_code_to_ndjson ⟨S ("P"), S ("I"), S ("FORM f.\nENDFORM.")⟩,
        1 ≤ r.start_line ∧ r.start_line ≤ r.end_line :=
  ⟨by decide, lines_amended ⟨S ("P"), S ("I"), S ("FORM f.\nENDFORM.")⟩ (by decide)⟩

theorem wn_cons_nonmethod (r : Rec) (rs : List Rec) (cur : Option Str) (lastLn : Nat)
    (h1 : r.type ≠ S ("method")) (h2 : r.type ≠ S ("class_impl")) :
    wellNested cur lastLn (r :: rs) = wellNested none r.start_line rs := by
  simp only [wellNested, if_neg h1, if_neg h2]

theorem wn_cons_class (r : Rec) (rs : List Rec) (cur : Option Str) (lastLn : Nat)
    (h1 : r.type = S ("class_impl")) :
    wellNested cur lastLn (r :: rs) = wellNested r.name r.start_line rs := by
  have h0 : r.type ≠ S ("method") := by rw [h1]; decide
  simp only [wellNested, if_neg h0, if_pos h1]

theorem wn_cons_method (r : Rec) (rs : List Rec) (c : Str) (lastLn : Nat)
    (h1 : r.type = S ("method")) (h2 : r.class_implementation = some c)
    (h3 : lastLn ≤ r.start_line) :
    wellNested (some c) lastLn (r :: rs) = wellNested (some c) r.start_line rs := by
  simp only [wellNested, if_pos h1, decide_eq_true h2, decide_eq_true h3,
    Bool.true_and]

/-- Stepping the checker over a record whose `type` field is literally
`raw_code` (the gap, tail and fallback records). -/
theorem wn_cons_raw (p i : Str) (nm : Option Str) (ci mo : Option Str)
    (sl el : Nat) (cd : Str) (rs : List Rec) (cur : Option Str) (lastLn : Nat) :
    wellNested cur lastLn
      ({ pgm_name := p, inc_name := i, type := S ("raw_code"), name := nm,
         class_implementation := ci, mode := mo, start_line := sl,
         end_line := el, code := cd } :: rs)
      = wellNested none sl rs := by
  refine wn_cons_nonmethod _ _ _ _ ?_ ?_
  · exact (by decide : S ("raw_code") ≠ S ("method"))
  · exact (by decide : S ("raw_code") ≠ S ("class_impl"))

/-- Method records of a chained span list, followed by any well-nested
continuation, pass the nesting checker. -/
theorem wn_methods (inp : AbapInput) (bt : Str) (s : Nat) (cname : Str)
    (zs : List Rec) (hz : ∀ cur l, wellNested cur l zs = true) :
    ∀ (mspans : List (Nat × Nat × List (Nat × Nat × Nat))) (lb lastLn : Nat),
      SpansOK bt.length lb mspans →
      lastLn ≤ lineOf inp.code (s + lb) →
      wellNested (some cname) lastLn
        (mspans.map (mkMethod inp bt s cname) ++ zs) = true := by
  intro mspans
  induction mspans with
  | nil => intro lb lastLn _ _; exact hz _ _
  | cons ms rest ih =>
    intro lb lastLn hok hline
    obtain ⟨m1, m2, mcaps⟩ := ms
    obtain ⟨h1, h2, h3, h4⟩ := hok
    rw [List.map_cons, List.cons_append,
      wn_cons_method _ _ _ _ (mkMethod_type ..) (mkMethod_owner ..)
        (by rw [mkMethod_start]; exact Nat.le_trans hline (lineOf_mono (by omega))),
      mkMethod_start]
    exact ih m2 (lineOf inp.code (s + (m1, m2, mcaps).1))
      h4 (lineOf_mono (by dsimp only; omega))

/-- One emitted block followed by any well-nested continuation passes the
nesting checker, whatever the incoming state. -/
theorem emit_block_wn (inp : AbapInput) (bt : Str) (s e : Nat) (zs : List Rec)
    (hz : ∀ cur l, wellNested cur l zs = true) :
    ∀ cur l, wellNested cur l (emit_block inp bt s e ++ zs) = true := by
  intro cur l
  rcases emit_block_shape inp bt s e with h | ⟨r, h, _, _, hm, hcl, _⟩
    | ⟨cname, container, h⟩
  · rw [h, List.nil_append]; exact hz cur l
  · rw [h, List.singleton_append, wn_cons_nonmethod r _ cur l hm hcl]
    exact hz _ _
  · rw [h, List.cons_append, wn_cons_class _ _ cur l rfl]
    exact wn_methods inp bt s cname zs hz _ 0 (lineOf inp.code s) finditer_ok
      (le_of_eq (by rw [Nat.add_zero]))

/-- The whole scan loop passes the nesting checker. -/
theorem parse_loop_wn (inp : AbapInput) :
    ∀ (spans : List (Nat × Nat × List (Nat × Nat × Nat))) (lb : Nat),
      SpansOK inp.code.length lb spans →
      ∀ cur l, wellNested cur l (parse_loop inp inp.code spans lb) = true := by
  intro spans
  induction spans with
  | nil =>
    intro lb _ cur l
    simp only [parse_loop]
    by_cases hw : hasNonWs (inp.code.drop lb)
    · rw [if_pos hw, wn_cons_raw]
      rfl
    · rw [if_neg hw]; rfl
  | cons sp rest ih =>
    intro lb hok cur l
    obtain ⟨s, e, caps⟩ := sp
    obtain ⟨h1, h2, h3, h4⟩ := hok
    have hz : ∀ cur l, wellNested cur l (parse_loop inp inp.code rest e) = true :=
      ih e h4
    simp only [parse_loop]
    rw [List.append_assoc]
    by_cases hw : hasNonWs (sliceStr inp.code lb s)
    · rw [if_pos hw, List.singleton_append, wn_cons_raw]
      exact emit_block_wn inp _ s e _ hz _ _
    · rw [if_neg hw, List.nil_append]
      exact emit_block_wn inp _ s e _ hz _ _

/-- C6: the app_V6 output passes the nesting checker: every method record
follows a class_impl record whose identifier its `class_implementation`
field names, separated only by earlier methods of the same class, in
non-decreasing source order. -/
theorem nesting_claim (inp : AbapInput) :
    wellNested none 0 (parse_abap_code_to_ndjson inp) = true := by
  simp only [parse_abap_code_to_ndjson]
  split
  · rw [wn_cons_raw]
    rfl
  · exact parse_loop_wn inp _ 0 finditer_ok none 0

theorem charAt_lt {src : Str} {i c : Nat} (h : charAt src i = some c) :
    i < src.length := by
  by_contra hc
  unfold charAt at h
  rw [List.drop_eq_nil_of_le (by omega)] at h
  simp at h

theorem countNl_succ_nl {src : Str} {i : Nat} (h : charAt src i = some 10) :
    countNl src (i + 1) = countNl src i + 1 := by
  unfold charAt at h
  rw [List.head?_drop] at h
  unfold countNl
  rw [List.take_succ, h]
  simp

/-- C8: an input opening with k full lines of kept (non-whitespace) free
text directly followed by a FORM block produces a raw_code record for
lines 1..k immediately followed by a perform record starting at line k+1
(k is the newline count of the leading text). -/
theorem leading_raw_then_form (inp : AbapInput) (s e : Nat)
    (hfi : (finditer true TOPLEVEL_RE inp.code).head?.map
      (fun t => (t.1, t.2.1)) = some (s, e))
    (hs : 0 < s)
    (hnl : charAt inp.code (s - 1) = some 10)
    (hgap : hasNonWs (sliceStr inp.code 0 s) = true)
    (hform : (matchAt true FORM_BLOCK_RE (sliceStr inp.code s e) 0).isSome = true) :
    ∃ g p more, parse_abap_code_to_ndjson inp = g :: p :: more
      ∧ g.type = S ("raw_code") ∧ g.start_line = 1
      ∧ g.end_line = countNl inp.code s
      ∧ p.type = S ("perform") ∧ p.start_line = countNl inp.code s + 1 := by
  have hlen : s - 1 < inp.code.length := charAt_lt hnl
  have hne : ¬ inp.code.isEmpty = true := not_isEmpty_of_lt hlen
  rw [Option.isSome_iff_exists] at hform
  obtain ⟨fm, hform⟩ := hform
  cases hfin : finditer true TOPLEVEL_RE inp.code with
  | nil => rw [hfin] at hfi; simp at hfi
  | cons t restSpans =>
    obtain ⟨s0, e0, caps⟩ := t
    rw [hfin] at hfi
    simp only [List.head?_cons, Option.map_some] at hfi
    obtain ⟨rfl, rfl⟩ : s = s0 ∧ e = e0 := by
      have h1 := congrArg Prod.fst (Option.some.inj hfi)
      have h2 := congrArg Prod.snd (Option.some.inj hfi)
      dsimp at h1 h2
      exact ⟨h1.symm, h2.symm⟩
    have hemit : emit_block inp (sliceStr inp.code s e) s e =
        [{ pgm_name := inp.pgm_name, inc_name := inp.inc_name, type := S ("perform"),
           name := some (groupText (sliceStr inp.code s e) fm.2 1),
           class_implementation := none, mode := none,
           start_line := (offsets_to_lines inp.code s e).1,
           end_line := (offsets_to_lines inp.code s e).2,
           code := sliceStr inp.code s e }] := by
      simp only [emit_block, hform]
    have hcount : countNl inp.code s = countNl inp.code (s - 1) + 1 := by
      have := countNl_succ_nl hnl
      rw [show s - 1 + 1 = s by omega] at this
      exact this
    simp only [parse_abap_code_to_ndjson, hfin, parse_loop, if_pos hgap, hemit,
      List.cons_append, List.nil_append, List.isEmpty_cons, Bool.false_eq_true,
      if_false]
    refine ⟨_, _, _, rfl, rfl, ?_, ?_, rfl, ?_⟩
    · dsimp only
      rw [offsets_fst, lineOf, if_neg hne, countNl_zero]
    · dsimp only
      rw [offsets_snd, if_pos hs, lineOf, if_neg hne, hcount]
    · dsimp only
      rw [offsets_fst, lineOf, if_neg hne]

/-- C8 witness: one leading comment line before a FORM block. -/
theorem leading_raw_then_form_witness :
    ∃ g p more,
      parse_abap_code_to_ndjson ⟨S ("P"), S ("I"), S ("* c\nFORM f.\nENDFORM.")⟩
        = g :: p :: more
      ∧ g.type = S ("raw_code") ∧ g.start_line = 1
      ∧ g.end_line = countNl (S ("* c\nFORM f.\nENDFORM.")) 4
      ∧ p.type = S ("perform")
      ∧ p.start_line = countNl (S ("* c\nFORM f.\nENDFORM.")) 4 + 1 :=
  leading_raw_then_form ⟨S ("P"), S ("I"), S ("* c\nFORM f.\nENDFORM.")⟩ 4 20
    (by decide) (by decide) (by decide) (by decide) (by decide)

/-- C4 counterexample: a class implementation with a free line between its
two methods.  The emitted class_impl code is header plus footer only; the
claim's formula (the span with exactly the method spans' text removed,
everything else retained) instead keeps the inter-method line, so the two
differ. -/
theorem container_counterexample :
    ((parse_abap_code_to_ndjson ⟨S ("P"), S ("I"),
        S ("CLASS c IMPLEMENTATION.\nMETHOD m.\nENDMETHOD.\nX.\nMETHOD n.\nENDMETHOD.\nENDCLASS.")⟩).head?.map
      Rec.code = some (S ("CLASS c IMPLEMENTATION.\nENDCLASS.")))
    ∧ keepOutside
        (S ("CLASS c IMPLEMENTATION.\nMETHOD m.\nENDMETHOD.\nX.\nMETHOD n.\nENDMETHOD.\nENDCLASS.")) 0
        (methodSpansOf
          (S ("CLASS c IMPLEMENTATION.\nMETHOD m.\nENDMETHOD.\nX.\nMETHOD n.\nENDMETHOD.\nENDCLASS.")))
      = S ("CLASS c IMPLEMENTATION.\n\nX.\n\nENDCLASS.")
    ∧ (S ("CLASS c IMPLEMENTATION.\nENDCLASS.") : Str)
      ≠ S ("CLASS c IMPLEMENTATION.\n\nX.\n\nENDCLASS.") := by
  refine ⟨?_, ?_, ?_⟩
  · decide
  · decide
  · decide

/-- C4 (amended): whenever `_emit_block` reaches its class_impl branch, the
head record's code is `amendedContainer`: the text before the first method
span rstripped, joined (by one line break when both sides are non-empty)
with the text after the last method span lstripped — text strictly between
adjacent method spans is dropped; with zero nested methods the code is the
full unmodified span. -/
theorem container_amended (inp : AbapInput) (bt : Str) (s e : Nat)
    (h1 : matchAt true FORM_BLOCK_RE bt 0 = none)
    (h2 : matchAt true CLDEF_BLOCK_RE bt 0 = none)
    (h3 : (matchAt true CLIMP_BLOCK_RE bt 0).isSome = true) :
    ∃ r rest, emit_block inp bt s e = r :: rest ∧ r.type = S ("class_impl")
      ∧ r.code = amendedContainer bt (methodSpansOf bt)
      ∧ (methodSpansOf bt = [] → r.code = bt) := by
  rw [Option.isSome_iff_exists] at h3
  obtain ⟨m, hm⟩ := h3
  simp only [emit_block, h1, h2, hm]
  refine ⟨_, _, rfl, rfl, ?_, ?_⟩
  · dsimp only
    unfold amendedContainer methodSpansOf
    rw [List.head?_map, List.getLast?_map]
    cases hh : (finditer true METHOD_BLOCK_RE bt).head? <;>
      cases hl : (finditer true METHOD_BLOCK_RE bt).getLast? <;>
      simp [hh, hl]
  · intro hnil
    unfold methodSpansOf at hnil
    rw [List.map_eq_nil_iff] at hnil
    dsimp only
    rw [hnil]
    rfl

/-- C4 witness: the class of the counterexample input reaches the
class_impl branch. -/
theorem container_amended_witness :
    ((matchAt true CLIMP_BLOCK_RE
        (S ("CLASS c IMPLEMENTATION.\nMETHOD m.\nENDMETHOD.\nX.\nMETHOD n.\nENDMETHOD.\nENDCLASS.")) 0).isSome
      = true)
    ∧ ∃ r rest, emit_block ⟨S ("P"), S ("I"),
        S ("CLASS c IMPLEMENTATION.\nMETHOD m.\nENDMETHOD.\nX.\nMETHOD n.\nENDMETHOD.\nENDCLASS.")⟩
        (S ("CLASS c IMPLEMENTATION.\nMETHOD m.\nENDMETHOD.\nX.\nMETHOD n.\nENDMETHOD.\nENDCLASS.")) 0 0
        = r :: rest
      ∧ r.type = S ("class_impl")
      ∧ r.code = amendedContainer
          (S ("CLASS c IMPLEMENTATION.\nMETHOD m.\nENDMETHOD.\nX.\nMETHOD n.\nENDMETHOD.\nENDCLASS."))
          (methodSpansOf
            (S ("CLASS c IMPLEMENTATION.\nMETHOD m.\nENDMETHOD.\nX.\nMETHOD n.\nENDMETHOD.\nENDCLASS.")))
      ∧ (methodSpansOf
            (S ("CLASS c IMPLEMENTATION.\nMETHOD m.\nENDMETHOD.\nX.\nMETHOD n.\nENDMETHOD.\nENDCLASS.")) = []
          → r.code = S ("CLASS c IMPLEMENTATION.\nMETHOD m.\nENDMETHOD.\nX.\nMETHOD n.\nENDMETHOD.\nENDCLASS.")) :=
  ⟨by decide, container_amended _ _ 0 0 (by decide) (by decide) (by decide)⟩

/-- C10 counterexample (app.py): `TOPLEVEL_RE` matches the whole input
`FORM f.\nENDFORM. x` (its `.*$` closer accepts the trailing non-comment
text), but every per-kind pattern rejects it, so the matched span produces
no record at all — the app.py output is empty and the span's text is
silently dropped. -/
theorem dropped_span_counterexample :
    (finditer false AppPy.TOPLEVEL_RE (S ("FORM f.\nENDFORM. x"))).map
        (fun t => (t.1, t.2.1)) = [(0, 18)]
    ∧ (AppPy.parse_abap_code_to_ndjson
        ⟨S ("P"), S ("I"), S ("FORM f.\nENDFORM. x")⟩).length = 0 := by
  refine ⟨?_, ?_⟩
  · decide
  · decide

/-- C10 (amended): a span matched by app.py's TOPLEVEL_RE produces at
least one record precisely when one of the per-kind patterns consulted in
`_emit_block` matches its text; when none does (which happens for texts
TOPLEVEL_RE accepts, per the counterexample) the span is silently dropped. -/
theorem emitted_iff_kind (inp : AbapInput) (bt : Str) (s e : Nat) :
    AppPy.emit_block inp bt s e = [] ↔
      (matchAt false AppPy.FORM_BLOCK_RE bt 0 = none
       ∧ matchAt false AppPy.CLDEF_BLOCK_RE bt 0 = none
       ∧ matchAt false AppPy.CLIMP_BLOCK_RE bt 0 = none
       ∧ matchAt false AppPy.FUNC_BLOCK_RE bt 0 = none
       ∧ matchAt true AppPy.MODULE_BLOCK_RE bt 0 = none
       ∧ matchAt false AppPy.MACRO_BLOCK_RE bt 0 = none) := by
  simp only [AppPy.emit_block]
  cases h1 : matchAt false AppPy.FORM_BLOCK_RE bt 0 with
  | some m => simp [h1]
  | none =>
  cases h2 : matchAt false AppPy.CLDEF_BLOCK_RE bt 0 with
  | some m => simp [h2]
  | none =>
  cases h3 : matchAt false AppPy.CLIMP_BLOCK_RE bt 0 with
  | some m => simp [h3]
  | none =>
  cases h4 : matchAt false AppPy.FUNC_BLOCK_RE bt 0 with
  | some m => simp [h4]
  | none =>
  cases h5 : matchAt true AppPy.MODULE_BLOCK_RE bt 0 with
  | some m => simp [h5]
  | none =>
  cases h6 : matchAt false AppPy.MACRO_BLOCK_RE bt 0 with
  | some m => simp [h6]
  | none => simp [h1, h2, h3, h4, h5, h6]

-- ---------- case-insensitivity of the app_V6 rules (claim C7) ----------

theorem lowerN_cases {a b : Nat} (h : lowerN a = lowerN b) :
    a = b ∨ (65 ≤ a ∧ a ≤ 90 ∧ b = a + 32) ∨ (65 ≤ b ∧ b ≤ 90 ∧ a = b + 32) := by
  unfold lowerN at h
  split at h <;> split at h <;> omega

/-- Every character class of these patterns is closed under ASCII case. -/
theorem mem_lowEq (cc : CC) {a b : Nat} (h : lowerN a = lowerN b) :
    cc.mem a = cc.mem b := by
  rcases lowerN_cases h with rfl | ⟨h1, h2, rfl⟩ | ⟨h1, h2, rfl⟩ <;>
    cases cc <;>
    simp only [CC.mem, isPySpaceN, isWordN, decide_eq_decide] <;>
    omega

theorem eqN_lowEq (c : Nat) {a b : Nat} (h : lowerN a = lowerN b) :
    eqN true c a = eqN true c b := by
  simp only [eqN, if_true]
  rw [h]

theorem eq10_lowEq {a b : Nat} (h : lowerN a = lowerN b) : a = 10 ↔ b = 10 := by
  unfold lowerN at h
  split at h <;> split at h <;> omega

theorem map_lowEq_cases {l1 l2 : Str} (h : l1.map lowerN = l2.map lowerN) :
    (l1 = [] ∧ l2 = []) ∨ ∃ a t1 b t2, l1 = a :: t1 ∧ l2 = b :: t2
      ∧ lowerN a = lowerN b ∧ t1.map lowerN = t2.map lowerN := by
  cases l1 with
  | nil => cases l2 with
    | nil => exact Or.inl ⟨rfl, rfl⟩
    | cons b t2 => simp at h
  | cons a t1 => cases l2 with
    | nil => simp at h
    | cons b t2 =>
      simp only [List.map_cons, List.cons.injEq] at h
      exact Or.inr ⟨a, t1, b, t2, rfl, rfl, h.1, h.2⟩

theorem some10_lowEq {o1 o2 : Option Nat}
    (h : o1.map lowerN = o2.map lowerN) : o1 = some 10 ↔ o2 = some 10 := by
  cases o1 with
  | none => cases o2 with
    | none => simp
    | some b => simp at h
  | some a => cases o2 with
    | none => simp at h
    | some b =>
      simp only [Option.map_some', Option.some.injEq] at h ⊢
      exact eq10_lowEq h

theorem isWordOpt_lowEq {o1 o2 : Option Nat}
    (h : o1.map lowerN = o2.map lowerN) : isWordOpt o1 = isWordOpt o2 := by
  cases o1 with
  | none => cases o2 with
    | none => rfl
    | some b => simp at h
  | some a => cases o2 with
    | none => simp at h
    | some b =>
      simp only [Option.map_some', Option.some.injEq] at h
      exact mem_lowEq .word h

theorem head?_map_lowEq {l1 l2 : Str} (h : l1.map lowerN = l2.map lowerN) :
    l1.head?.map lowerN = l2.head?.map lowerN := by
  rw [← List.head?_map, ← List.head?_map, h]

theorem charAt_map_lowEq {s t : Str} (h : s.map lowerN = t.map lowerN)
    (i : Nat) : (charAt s i).map lowerN = (charAt t i).map lowerN := by
  unfold charAt
  rw [← List.head?_map, ← List.head?_map, List.map_drop, List.map_drop, h]

theorem stRel_adv {u v : MSt} {a b : Nat} {t1 t2 : Str}
    (hpos : u.pos = v.pos) (hcaps : u.caps = v.caps)
    (hab : lowerN a = lowerN b) (ht : t1.map lowerN = t2.map lowerN) :
    stRel (adv u a t1) (adv v b t2) := by
  refine ⟨?_, hcaps, ?_, ht⟩
  · simp [adv, hpos]
  · simp only [adv, Option.map_some']
    exact congrArg some hab

/-- Case-invariance of the matcher under the i flag: on case-equal inputs,
with continuations that respect the relation, the matcher fails on both or
succeeds with the same position and captures. -/
theorem mrun_rel : ∀ (fuel : Nat) (r : RE) (u v : MSt)
    (ku kv : MSt → Option MSt),
    stRel u v → (∀ a b, stRel a b → oRel (ku a) (kv b)) →
    oRel (mrun true fuel r u ku) (mrun true fuel r v kv) := by
  intro fuel
  induction fuel with
  | zero => intro r u v ku kv _ _; simp [mrun, oRel]
  | succ n ih =>
    intro r u v ku kv hst hk
    obtain ⟨hpos, hcaps, hprev, hrest⟩ := hst
    cases r with
    | eps => exact hk u v ⟨hpos, hcaps, hprev, hrest⟩
    | lit c =>
      simp only [mrun]
      rcases map_lowEq_cases hrest with ⟨h1, h2⟩ | ⟨a, t1, b, t2, h1, h2, hab, ht⟩
      · rw [h1, h2]; trivial
      · rw [h1, h2]
        dsimp only
        rw [show eqN true c a = eqN true c b from eqN_lowEq c hab]
        split
        · exact hk _ _ (stRel_adv hpos hcaps hab ht)
        · trivial
    | cls cc =>
      simp only [mrun]
      rcases map_lowEq_cases hrest with ⟨h1, h2⟩ | ⟨a, t1, b, t2, h1, h2, hab, ht⟩
      · rw [h1, h2]; trivial
      · rw [h1, h2]
        dsimp only
        rw [show cc.mem a = cc.mem b from mem_lowEq cc hab]
        split
        · exact hk _ _ (stRel_adv hpos hcaps hab ht)
        · trivial
    | seq a b =>
      simp only [mrun]
      exact ih a u v _ _ ⟨hpos, hcaps, hprev, hrest⟩
        (fun x y hxy => ih b x y ku kv hxy hk)
    | alt a b =>
      simp only [mrun]
      have h1 := ih a u v ku kv ⟨hpos, hcaps, hprev, hrest⟩ hk
      cases hu : mrun true n a u ku with
      | some w1 =>
        cases hv : mrun true n a v kv with
        | some w2 => rw [hu, hv] at h1; exact h1
        | none => rw [hu, hv] at h1; exact absurd h1 (by simp [oRel])
      | none =>
        cases hv : mrun true n a v kv with
        | some w2 => rw [hu, hv] at h1; exact absurd h1 (by simp [oRel])
        | none => exact ih b u v ku kv ⟨hpos, hcaps, hprev, hrest⟩ hk
    | star lz a =>
      simp only [mrun]
      have hcont : ∀ x y, stRel x y →
          oRel ((fun st2 => if st2.pos = u.pos then none
              else mrun true n (.star lz a) st2 ku) x)
            ((fun st2 => if st2.pos = v.pos then none
              else mrun true n (.star lz a) st2 kv) y) := by
        intro x y hxy
        dsimp only
        rw [hxy.1, hpos]
        split
        · trivial
        · exact ih (.star lz a) x y ku kv hxy hk
      cases lz with
      | true =>
        simp only [if_pos]
        have hko := hk u v ⟨hpos, hcaps, hprev, hrest⟩
        cases hku : ku u with
        | some w1 =>
          cases hkv : kv v with
          | some w2 => rw [hku, hkv] at hko; exact hko
          | none => rw [hku, hkv] at hko; exact absurd hko (by simp [oRel])
        | none =>
          cases hkv : kv v with
          | some w2 => rw [hku, hkv] at hko; exact absurd hko (by simp [oRel])
          | none => exact ih a u v _ _ ⟨hpos, hcaps, hprev, hrest⟩ hcont
      | false =>
        simp only [Bool.false_eq_true, if_false]
        have hbody := ih a u v _ _ ⟨hpos, hcaps, hprev, hrest⟩ hcont
        cases hu : mrun true n a u (fun st2 => if st2.pos = u.pos then none
            else mrun true n (.star false a) st2 ku) with
        | some w1 =>
          cases hv : mrun true n a v (fun st2 => if st2.pos = v.pos then none
              else mrun true n (.star false a) st2 kv) with
          | some w2 => rw [hu, hv] at hbody; exact hbody
          | none => rw [hu, hv] at hbody; exact absurd hbody (by simp [oRel])
        | none =>
          cases hv : mrun true n a v (fun st2 => if st2.pos = v.pos then none
              else mrun true n (.star false a) st2 kv) with
          | some w2 => rw [hu, hv] at hbody; exact absurd hbody (by simp [oRel])
          | none => exact hk u v ⟨hpos, hcaps, hprev, hrest⟩
    | opt a =>
      simp only [mrun]
      have hbody := ih a u v ku kv ⟨hpos, hcaps, hprev, hrest⟩ hk
      cases hu : mrun true n a u ku with
      | some w1 =>
        cases hv : mrun true n a v kv with
        | some w2 => rw [hu, hv] at hbody; exact hbody
        | none => rw [hu, hv] at hbody; exact absurd hbody (by simp [oRel])
      | none =>
        cases hv : mrun true n a v kv with
        | some w2 => rw [hu, hv] at hbody; exact absurd hbody (by simp [oRel])
        | none => exact hk u v ⟨hpos, hcaps, hprev, hrest⟩
    | bol =>
      simp only [mrun]
      have hiff : (u.pos = 0 ∨ u.prev = some 10) ↔ (v.pos = 0 ∨ v.prev = some 10) := by
        rw [hpos, some10_lowEq hprev]
      by_cases hcnd : u.pos = 0 ∨ u.prev = some 10
      · rw [if_pos hcnd, if_pos (hiff.mp hcnd)]
        exact hk u v ⟨hpos, hcaps, hprev, hrest⟩
      · rw [if_neg hcnd, if_neg (fun hc => hcnd (hiff.mpr hc))]
        trivial
    | eol =>
      simp only [mrun]
      rcases map_lowEq_cases hrest with ⟨h1, h2⟩ | ⟨a, t1, b, t2, h1, h2, hab, ht⟩
      · rw [h1, h2]
        exact hk u v ⟨hpos, hcaps, hprev, hrest⟩
      · rw [h1, h2]
        dsimp only
        by_cases h10 : a = 10
        · rw [if_pos h10, if_pos ((eq10_lowEq hab).mp h10)]
          exact hk u v ⟨hpos, hcaps, hprev, hrest⟩
        · rw [if_neg h10, if_neg (fun hc => h10 ((eq10_lowEq hab).mpr hc))]
          trivial
    | wb =>
      simp only [mrun]
      have hw1 : isWordOpt u.prev = isWordOpt v.prev := isWordOpt_lowEq hprev
      have hw2 : isWordOpt u.rest.head? = isWordOpt v.rest.head? :=
        isWordOpt_lowEq (head?_map_lowEq hrest)
      rw [hw1, hw2]
      split
      · exact hk u v ⟨hpos, hcaps, hprev, hrest⟩
      · trivial
    | grp i a =>
      simp only [mrun]
      refine ih a u v _ _ ⟨hpos, hcaps, hprev, hrest⟩ ?_
      intro x y hxy
      refine hk _ _ ⟨hxy.1, ?_, hxy.2.2.1, hxy.2.2.2⟩
      dsimp only
      rw [hxy.1, hpos, hxy.2.1]

theorem length_lowEq {s t : Str} (h : s.map lowerN = t.map lowerN) :
    s.length = t.length := by
  have := congrArg List.length h
  simpa using this

/-- Case-equal inputs give literally equal anchored-match results (the end
offset and the capture offsets are positions, not text). -/
theorem matchAt_lowEq (r : RE) {s t : Str} (h : s.map lowerN = t.map lowerN)
    (pos : Nat) : matchAt true r s pos = matchAt true r t pos := by
  have hlen : s.length = t.length := length_lowEq h
  have hf : fuelFor s = fuelFor t := by unfold fuelFor; rw [hlen]
  have hst : stRel
      ⟨pos, if pos = 0 then none else charAt s (pos - 1), s.drop pos, []⟩
      ⟨pos, if pos = 0 then none else charAt t (pos - 1), t.drop pos, []⟩ := by
    refine ⟨rfl, rfl, ?_, ?_⟩
    · dsimp only
      split
      · rfl
      · exact charAt_map_lowEq h (pos - 1)
    · dsimp only
      rw [List.map_drop, List.map_drop, h]
  have hrel := mrun_rel (fuelFor s) r _ _ (fun st => some st) (fun st => some st)
    hst (fun a b hab => hab)
  unfold matchAt
  rw [← hf]
  cases h1 : mrun true (fuelFor s) r
      ⟨pos, if pos = 0 then none else charAt s (pos - 1), s.drop pos, []⟩
      (fun st => some st) with
  | none =>
    cases h2 : mrun true (fuelFor s) r
        ⟨pos, if pos = 0 then none else charAt t (pos - 1), t.drop pos, []⟩
        (fun st => some st) with
    | none => rfl
    | some w => rw [h1, h2] at hrel; exact absurd hrel (by simp [oRel])
  | some w1 =>
    cases h2 : mrun true (fuelFor s) r
        ⟨pos, if pos = 0 then none else charAt t (pos - 1), t.drop pos, []⟩
        (fun st => some st) with
    | none => rw [h1, h2] at hrel; exact absurd hrel (by simp [oRel])
    | some w2 =>
      rw [h1, h2] at hrel
      obtain ⟨hp, hc, _, _⟩ := hrel
      dsimp only
      rw [hp, hc]

theorem searchFrom_lowEq (r : RE) {s t : Str} (h : s.map lowerN = t.map lowerN) :
    ∀ (n pos : Nat), searchFrom true r s pos n = searchFrom true r t pos n := by
  intro n
  induction n with
  | zero => intro pos; rfl
  | succ m ihn =>
    intro pos
    simp only [searchFrom]
    rw [matchAt_lowEq r h pos]
    cases matchAt true r t pos with
    | some u => rfl
    | none => exact ihn (pos + 1)

theorem finditerAux_lowEq (r : RE) {s t : Str}
    (h : s.map lowerN = t.map lowerN) :
    ∀ (n pos : Nat), finditerAux true r s pos n = finditerAux true r t pos n := by
  have hlen : s.length = t.length := length_lowEq h
  intro n
  induction n with
  | zero => intro pos; rfl
  | succ m ihn =>
    intro pos
    simp only [finditerAux]
    rw [hlen, searchFrom_lowEq r h (t.length + 1 - pos) pos]
    cases searchFrom true r t pos (t.length + 1 - pos) with
    | none => rfl
    | some u =>
      obtain ⟨s1, e1, caps1⟩ := u
      dsimp only
      rw [ihn (if s1 < e1 then e1 else e1 + 1)]

/-- Case-equal inputs produce identical top-level span lists. -/
theorem finditer_lowEq (r : RE) {s t : Str} (h : s.map lowerN = t.map lowerN) :
    finditer true r s = finditer true r t := by
  have hlen : s.length = t.length := length_lowEq h
  unfold finditer
  rw [hlen, finditerAux_lowEq r h (t.length + 1) 0]

theorem sliceStr_lowEq {s t : Str} (h : s.map lowerN = t.map lowerN)
    (a b : Nat) : (sliceStr s a b).map lowerN = (sliceStr t a b).map lowerN := by
  unfold sliceStr
  rw [List.map_take, List.map_take, List.map_drop, List.map_drop, h]

/-- C7 counterexample (app.py): lowering the case of the FORM/ENDFORM
keywords changes which spans app.py's TOPLEVEL_RE matches — the uppercase
input yields one span, the case-folded-equal lowercase input yields none
(only app.py's MODULE rule carries IGNORECASE). -/
theorem case_sensitivity_counterexample :
    ((S ("FORM f.\nENDFORM.")).map lowerN = (S ("form f.\nendform.")).map lowerN)
    ∧ (finditer false AppPy.TOPLEVEL_RE (S ("FORM f.\nENDFORM."))).map
        (fun t => (t.1, t.2.1)) = [(0, 16)]
    ∧ finditer false AppPy.TOPLEVEL_RE (S ("form f.\nendform.")) = [] := by
  refine ⟨?_, ?_, ?_⟩
  · decide
  · decide
  · decide

/-- C7 (amended): in app_V6 every recognition rule is case-insensitive:
inputs equal up to ASCII letter case yield identical top-level span lists
(offsets and capture offsets included) and identical kind assignments on
every slice that `_emit_block` would classify.  (In the app.py iteration,
by the counterexample, only the MODULE rule is case-insensitive.) -/
theorem case_insensitive_v6 (s t : Str) (h : s.map lowerN = t.map lowerN) :
    finditer true TOPLEVEL_RE s = finditer true TOPLEVEL_RE t
    ∧ ∀ a b : Nat, kindIndex (sliceStr s a b) = kindIndex (sliceStr t a b) := by
  constructor
  · exact finditer_lowEq TOPLEVEL_RE h
  · intro a b
    have hsl := sliceStr_lowEq h a b
    unfold kindIndex
    rw [matchAt_lowEq FORM_BLOCK_RE hsl 0, matchAt_lowEq CLDEF_BLOCK_RE hsl 0,
      matchAt_lowEq CLIMP_BLOCK_RE hsl 0, matchAt_lowEq FUNC_BLOCK_RE hsl 0,
      matchAt_lowEq MODULE_BLOCK_RE hsl 0, matchAt_lowEq MACRO_BLOCK_RE hsl 0]

/-- C7 witness: a concrete case-variant pair for the amended statement. -/
theorem case_insensitive_v6_witness :
    ((S ("FORM x.\nENDFORM.")).map lowerN = (S ("form X.\nendform.")).map lowerN)
    ∧ finditer true TOPLEVEL_RE (S ("FORM x.\nENDFORM."))
      = finditer true TOPLEVEL_RE (S ("form X.\nendform.")) :=
  ⟨by decide, (case_insensitive_v6 (S ("FORM x.\nENDFORM."))
    (S ("form X.\nendform.")) (by decide)).1⟩
